import Mathlib

/-!
Shallow embedding of the Convai-UnrealEngine-ModdingTool core algorithms:
the case-preserving identifier replacer (`core/file_utility_manager.py` and
`core/file_utils.py`), the INI section merger
(`core/unreal_engine_manager.py`, `_merge_ini_file`), the archive plugin
installer (`core/download_utils.py`), the rename-collision logic, and the
project-name derivation (`trim_unique_str`).

Python strings are modelled as lists of Unicode code points (`List Nat`);
the string predicates and transformations (`str.isupper`, `str.istitle`,
`str.title`, `str.strip`, `str.splitlines`, ...) are modelled with their
documented semantics, with casing restricted to ASCII (the only characters
the repository's tokens and config keys use).
-/

namespace ConvaiModel

/-- A Python string, modelled as its list of Unicode code points. -/
abbrev Line := List Nat

/-- Code points of a Lean string literal, for stating concrete instances. -/
def lineOf (s : String) : Line := s.data.map Char.toNat

/-! ## Python character classes (code-point level) -/

/-- Characters considered whitespace by Python `str.strip` / `str.isspace`
(ASCII whitespace plus the Unicode whitespace code points). -/
def isPyWS (n : Nat) : Bool :=
  n = 0x20 || (0x09 ≤ n && n ≤ 0x0d) || (0x1c ≤ n && n ≤ 0x1f) ||
  n = 0x85 || n = 0xa0 || n = 0x1680 || (0x2000 ≤ n && n ≤ 0x200a) ||
  n = 0x2028 || n = 0x2029 || n = 0x202f || n = 0x205f || n = 0x3000

/-- Line-boundary characters of Python `str.splitlines` (besides the two
character sequence carriage-return line-feed, which is handled separately). -/
def isPySep (n : Nat) : Bool :=
  n = 0x0a || n = 0x0d || n = 0x0b || n = 0x0c ||
  (0x1c ≤ n && n ≤ 0x1e) || n = 0x85 || n = 0x2028 || n = 0x2029

/-- Python `str.strip()`: remove leading and trailing whitespace. -/
def pyStrip (l : Line) : Line :=
  ((l.dropWhile isPyWS).reverse.dropWhile isPyWS).reverse

/-- ASCII uppercase letter. -/
def isUpperN (n : Nat) : Bool := 65 ≤ n && n ≤ 90

/-- ASCII lowercase letter. -/
def isLowerN (n : Nat) : Bool := 97 ≤ n && n ≤ 122

/-- ASCII letter (the cased characters of the ASCII model). -/
def isAlphaN (n : Nat) : Bool := isUpperN n || isLowerN n

/-- ASCII digit, as in Python `str.isdigit` restricted to ASCII. -/
def isDigitN (n : Nat) : Bool := 48 ≤ n && n ≤ 57

/-- ASCII lowering of one character. -/
def toLowerN (n : Nat) : Nat := if isUpperN n then n + 32 else n

/-- ASCII uppercasing of one character. -/
def toUpperN (n : Nat) : Nat := if isLowerN n then n - 32 else n

/-! ## Python casing predicates and transformations -/

/-- Python `str.isupper()`: at least one cased character and no lowercase one. -/
def pyIsUpperStr (l : Line) : Bool :=
  l.any isAlphaN && l.all (fun c => !isAlphaN c || isUpperN c)

/-- Python `str.islower()`: at least one cased character and no uppercase one. -/
def pyIsLowerStr (l : Line) : Bool :=
  l.any isAlphaN && l.all (fun c => !isAlphaN c || isLowerN c)

/-- Helper for Python `str.istitle()`: `prevCased` tracks whether the previous
character was cased, `seen` whether any cased character occurred so far. -/
def pyIsTitleAux : Line → Bool → Bool → Bool
  | [], _, seen => seen
  | c :: r, prevCased, seen =>
    if isUpperN c then
      if prevCased then false else pyIsTitleAux r true true
    else if isLowerN c then
      if prevCased then pyIsTitleAux r true true else false
    else
      pyIsTitleAux r false seen

/-- Python `str.istitle()`: uppercase letters only after uncased characters,
lowercase letters only after cased ones, and at least one cased character. -/
def pyIsTitleStr (l : Line) : Bool := pyIsTitleAux l false false

/-- Python `str.upper()`. -/
def pyUpper (l : Line) : Line := l.map toUpperN

/-- Python `str.lower()`. -/
def pyLower (l : Line) : Line := l.map toLowerN

/-- Python `str.capitalize()`: first character uppercased, the rest lowercased. -/
def pyCapitalize : Line → Line
  | [] => []
  | c :: r => toUpperN c :: r.map toLowerN

/-- Helper for Python `str.title()`: a letter starting a word (previous
character not a letter) is uppercased, any other letter lowercased. -/
def pyTitleAux : Line → Bool → Line
  | [], _ => []
  | c :: r, prevAlpha =>
    (if isAlphaN c then (if prevAlpha then toLowerN c else toUpperN c) else c)
      :: pyTitleAux r (isAlphaN c)

/-- Python `str.title()`. -/
def pyTitle (l : Line) : Line := pyTitleAux l false

/-! ## The two case-preserving replacers

`FileUtilityManager.case_preserving_replace` (file_utility_manager.py,
lines 194-212) classifies each match with `isupper`/`islower`/`istitle` and
emits `upper`/`lower`/`title`/unchanged.

`file_utils.case_preserving_replace` (file_utils.py, lines 83-98) classifies
with `isupper`/`islower`/`matched[0].isupper() and matched[1:].islower()` and
emits `upper`/`lower`/`capitalize`/unchanged.

Both run `re.sub(re.escape(old), repl, text, flags=re.IGNORECASE)`: a literal,
case-insensitive, left-to-right, non-overlapping scan. The scan is modelled
for a non-empty pattern (`re.sub` with an empty pattern inserts around every
character, and `file_utils`'s classifier then raises `IndexError` on the empty
match, so no claim below concerns an empty `old`). -/

/-- Case-insensitive equality of two strings (ASCII case folding, which is
what `re.IGNORECASE` does on ASCII literals). -/
def lowerEq (a b : Line) : Bool := pyLower a == pyLower b

/-- The replacement for one matched span `m`, per
`FileUtilityManager.case_preserving_replace`. -/
def fumTransform (newV : Line) (m : Line) : Line :=
  if pyIsUpperStr m then pyUpper newV
  else if pyIsLowerStr m then pyLower newV
  else if pyIsTitleStr m then pyTitle newV
  else newV

/-- The replacement for one matched span `m`, per
`file_utils.case_preserving_replace` (`m` is non-empty whenever the pattern
is; the `[]` case of the inner match is unreachable then). -/
def fuTransform (newV : Line) (m : Line) : Line :=
  if pyIsUpperStr m then pyUpper newV
  else if pyIsLowerStr m then pyLower newV
  else if (match m with
           | c :: r => isUpperN c && pyIsLowerStr r
           | [] => false) then pyCapitalize newV
  else newV

/-- Scanner for the substitution: when `skip` is positive, the next character
belongs to an already-replaced match and is consumed without output; at
`skip = 0` the scanner tries to match the pattern `p0 :: ps` at the current
position. Structured this way so that it is structurally recursive on the
text (a match consumes its span one character at a time). -/
def subCIGo (p0 : Nat) (ps : Line) (tr : Line → Line) : Nat → Line → Line
  | _, [] => []
  | skip + 1, _ :: rest => subCIGo p0 ps tr skip rest
  | 0, c :: rest =>
    if lowerEq ((c :: rest).take (ps.length + 1)) (p0 :: ps) then
      tr ((c :: rest).take (ps.length + 1)) ++ subCIGo p0 ps tr ps.length rest
    else
      c :: subCIGo p0 ps tr 0 rest

/-- Left-to-right, non-overlapping, case-insensitive literal substitution:
the semantics of `re.sub(re.escape(p0 :: ps), tr, text, flags=re.IGNORECASE)`
for the non-empty pattern `p0 :: ps`. -/
def subCI (p0 : Nat) (ps : Line) (tr : Line → Line) (text : Line) : Line :=
  subCIGo p0 ps tr 0 text

/-- `FileUtilityManager.case_preserving_replace(old, newV, text)`. -/
def case_preserving_replace_fum (old newV text : Line) : Line :=
  match old with
  | [] => text
  | p0 :: ps => subCI p0 ps (fumTransform newV) text

/-- `file_utils.case_preserving_replace(old, newV, text)`. -/
def case_preserving_replace_fu (old newV text : Line) : Line :=
  match old with
  | [] => text
  | p0 :: ps => subCI p0 ps (fuTransform newV) text

/-! ## Python `str.splitlines` -/

/-- Single pass of `str.splitlines` with the current (reversed) line in
`acc`: a carriage return, a line feed, a carriage-return/line-feed pair or
any other boundary character ends a line; a final segment is emitted only
when non-empty. The `cr` flag records that the previous character was a
carriage return whose line was already emitted, so that a directly
following line feed is part of the same boundary. -/
def splitlinesAux : Bool → Line → Line → List Line
  | _, [], acc => if acc.isEmpty then [] else [acc.reverse]
  | cr, c :: rest, acc =>
    if cr && c == 10 then splitlinesAux false rest acc
    else if c == 13 then acc.reverse :: splitlinesAux true rest []
    else if isPySep c then acc.reverse :: splitlinesAux false rest []
    else splitlinesAux false rest (c :: acc)

/-- Python `str.splitlines()`. -/
def pySplitlines (l : Line) : List Line := splitlinesAux false l []

/-! ## The INI section merger (`UnrealEngineManager._merge_ini_file`)

A parsed document is an insertion-ordered association list from section
header to the section's lines, mirroring the Python `dict` the code builds.
`setdefaultSec`, `appendToSec` and `setSec` are `dict.setdefault(k, [])`,
`dict[k].append(v)` and `dict[k] = v` (assignment keeps an existing key's
position and appends a new key at the end). -/

abbrev Doc := List (Line × List Line)

/-- Ordered-dict lookup. -/
def lookupSec : Doc → Line → Option (List Line)
  | [], _ => none
  | (h, ls) :: rest, k => if h = k then some ls else lookupSec rest k

/-- Whether the key is present. -/
def hasSec (d : Doc) (k : Line) : Bool := (lookupSec d k).isSome

/-- Python `dict.setdefault(k, [])`. -/
def setdefaultSec (d : Doc) (k : Line) : Doc :=
  if hasSec d k then d else d ++ [(k, [])]

/-- Append one line to the (present) section `k`. -/
def appendToSec : Doc → Line → Line → Doc
  | [], _, _ => []
  | (h, ls) :: rest, k, v =>
    if h = k then (h, ls ++ [v]) :: rest else (h, ls) :: appendToSec rest k v

/-- Python `dict[k] = v`: replace in place, or append a new key at the end. -/
def setSec : Doc → Line → List Line → Doc
  | [], k, v => [(k, v)]
  | (h, ls) :: rest, k, v =>
    if h = k then (k, v) :: rest else (h, ls) :: setSec rest k v

/-- Test `line.startswith('[') and line.endswith(']')`. -/
def isHeaderLine (s : Line) : Bool :=
  match s with
  | [] => false
  | c :: r => c == 91 && ((c :: r).getLast? == some 93)

/-- One raw line of the existing-file parse loop of `_merge_ini_file`
(unreal_engine_manager.py, lines 66-80): blank lines are recorded as empty
placeholders inside the current section, header lines open (or re-open) a
section, other lines are stored stripped; lines before any header are
dropped. The `rstrip('\n')` in the source is a no-op after `splitlines`. -/
def parseExistingStep (st : Doc × Option Line) (raw : Line) : Doc × Option Line :=
  let s := pyStrip raw
  if s.isEmpty then
    match st.2 with
    | some cur => (appendToSec (setdefaultSec st.1 cur) cur [], st.2)
    | none => st
  else if isHeaderLine s then
    (setdefaultSec st.1 s, some s)
  else
    match st.2 with
    | some cur => (appendToSec (setdefaultSec st.1 cur) cur s, st.2)
    | none => st

/-- The existing-file parse of `_merge_ini_file` applied to a file content. -/
def parseExistingDoc (t : Line) : Doc :=
  ((pySplitlines t).foldl parseExistingStep ([], none)).1

/-- One line of `UnrealEngineManager._parse_ini_sections`
(unreal_engine_manager.py, lines 25-40): blank lines are skipped entirely,
otherwise as in the existing-file parse. -/
def parseDesiredStep (st : Doc × Option Line) (raw : Line) : Doc × Option Line :=
  let s := pyStrip raw
  if s.isEmpty then st
  else if isHeaderLine s then (setdefaultSec st.1 s, some s)
  else
    match st.2 with
    | some cur => (appendToSec st.1 cur s, st.2)
    | none => st

/-- `UnrealEngineManager._parse_ini_sections(raw)`. -/
def parseDesiredDoc (t : Line) : Doc :=
  ((pySplitlines t).foldl parseDesiredStep ([], none)).1

/-- Key part of `_extract_ini_key`: text before the first `=` (or the whole
text when there is none), stripped. -/
def splitEqKey (rest : Line) : Line :=
  if rest.contains 61 then pyStrip (rest.takeWhile (fun c => c != 61))
  else pyStrip rest

/-- `UnrealEngineManager._extract_ini_key(line)`: the optional leading `+`/`-`
operator and the key. -/
def extract_ini_key (l : Line) : Option Nat × Line :=
  match l with
  | c :: r => if c == 43 || c == 45 then (some c, splitEqKey r) else (none, splitEqKey (c :: r))
  | [] => (none, splitEqKey [])

/-- Whether an existing line survives the cleanup pass for the desired line
`dline` (unreal_engine_manager.py, lines 91-104): a scalar desired line
removes same-key scalar lines (the existing line is stripped before key
extraction), an operator line removes textually identical lines. -/
def keepLine (dline : Line) (e : Line) : Bool :=
  match extract_ini_key dline with
  | (none, k) =>
    let ek := extract_ini_key (pyStrip e)
    !(ek.2 == k && ek.1.isNone)
  | (some _, _) => !(pyStrip e == dline)

/-- The removal applied to a section's existing lines for one desired line. -/
def removeMatching (d : Line) (el : List Line) : List Line := el.filter (keepLine d)

/-- De-duplication preserving first occurrences (the `seen` set loop,
unreal_engine_manager.py, lines 106-111). -/
def dedupFirstAux : List Line → List Line → List Line
  | [], _ => []
  | x :: r, seen =>
    if x ∈ seen then dedupFirstAux r seen else x :: dedupFirstAux r (x :: seen)

/-- De-duplicate the lines to append, by exact text, keeping first occurrences. -/
def dedupFirst (ls : List Line) : List Line := dedupFirstAux ls []

/-- Drop trailing empty lines (the `while existing_lines and
existing_lines[-1] == ""` loop). -/
def popTrailingBlanks (ls : List Line) : List Line :=
  (ls.reverse.dropWhile List.isEmpty).reverse

/-- The per-section merge of `_merge_ini_file` (lines 88-117): run the
removal pass for every desired line over the existing lines, drop trailing
blanks, then append the de-duplicated desired lines. -/
def mergeLines (el : List Line) (ds : List Line) : List Line :=
  popTrailingBlanks (ds.foldl (fun acc d => removeMatching d acc) el) ++ dedupFirst ds

/-- Processing of one desired section: `existing_sections[section] = ...`. -/
def mergeSectionsStep (ex : Doc) (sec : Line × List Line) : Doc :=
  setSec ex sec.1 (mergeLines ((lookupSec ex sec.1).getD []) sec.2)

/-- The desired-section loop of `_merge_ini_file`. -/
def mergeSections (ex ds : Doc) : Doc := ds.foldl mergeSectionsStep ex

/-- The `section_order` computation (lines 120-123): all keys of the merged
dict, then any desired key not already present (none, after the merge loop). -/
def sectionOrder (merged : Doc) (ds : Doc) : List Line :=
  (ds.map Prod.fst).foldl (fun ord s => if s ∈ ord then ord else ord ++ [s])
    (merged.map Prod.fst)

/-- Trim leading and trailing blank lines of a section for output (the
`start_idx`/`end_idx` trimming, lines 131-137). -/
def trimBlanks (ls : List Line) : List Line :=
  popTrailingBlanks (ls.dropWhile List.isEmpty)

/-- Lines of one section as written: every line followed by a newline. -/
def renderLines : List Line → Line
  | [] => []
  | ln :: rest => ln ++ 10 :: renderLines rest

/-- One section as written: header, newline, trimmed lines. -/
def renderSection (h : Line) (ls : List Line) : Line :=
  h ++ 10 :: renderLines (trimBlanks ls)

/-- Sections after the first, each preceded by the separating blank line. -/
def renderDocAux (m : Doc) : List Line → Line
  | [] => []
  | h :: rest =>
    10 :: renderSection h ((lookupSec m h).getD []) ++ renderDocAux m rest

/-- The write-out loop of `_merge_ini_file` (lines 125-145). -/
def renderDoc (m : Doc) (order : List Line) : Line :=
  match order with
  | [] => []
  | h :: rest => renderSection h ((lookupSec m h).getD []) ++ renderDocAux m rest

/-- `UnrealEngineManager._merge_ini_file` as a content transformer: `existing`
is the current content of the target file (`none` when the file does not
exist, in which case the existing document is empty), `desired` the desired
settings document; the result is the content written back. -/
def merge_ini_content (existing : Option Line) (desired : Line) : Line :=
  let ex := match existing with
            | some t => parseExistingDoc t
            | none => []
  let ds := parseDesiredDoc desired
  let merged := mergeSections ex ds
  renderDoc merged (sectionOrder merged ds)

/-! ## The archive plugin installers (`core/download_utils.py`)

An extracted archive is a directory tree; `os.walk` visits the root first
and then recurses into each subdirectory in listed order. Both installers
locate the first directory (in walk order) containing a file ending in
`.uplugin` and install under `plugins_dir/basename(that directory)`. -/

mutual
/-- A directory of the extracted archive: its files and its subdirectories. -/
inductive FsTree where
  | node (files : List Line) (subdirs : FsForest)

/-- An ordered list of named subdirectories. -/
inductive FsForest where
  | nil
  | cons (name : Line) (t : FsTree) (rest : FsForest)
end

mutual
/-- `os.walk` on a tree: the root (with its path and files) first, then the
walks of the subdirectories in order. -/
def walkTree (path : List Line) : FsTree → List (List Line × List Line)
  | .node files subdirs => (path, files) :: walkForest path subdirs

/-- `os.walk` on a list of subdirectories. -/
def walkForest (path : List Line) : FsForest → List (List Line × List Line)
  | .nil => []
  | .cons n t rest => walkTree (path ++ [n]) t ++ walkForest path rest
end

/-- Whether a directory's file list contains a descriptor
(`any(f.endswith(".uplugin") for f in files)`). -/
def hasDescriptor (files : List Line) : Bool :=
  files.any fun f => decide (lineOf ".uplugin" <:+ f)

/-- The `plugin_folder` search loop of `extract_plugin_zip` and
`extract_and_install_plugin`: the first directory in walk order whose files
contain a `.uplugin`, as a path from the temporary extraction root. -/
def findPluginFolder (tempName : Line) (t : FsTree) : Option (List Line) :=
  ((walkTree [tempName] t).find? fun pf => hasDescriptor pf.2).map Prod.fst

/-- The name of the installed plugin directory:
`os.path.basename(plugin_folder)`. -/
def extract_plugin_zip_name (tempName : Line) (t : FsTree) : Option Line :=
  (findPluginFolder tempName t).map fun p => p.getLastD []

/-- The descriptor's base name without its extension
(`os.path.splitext(name)[0]` for a name ending in `.uplugin`). -/
def descriptorBaseName (f : Line) : Line :=
  f.take (f.length - (lineOf ".uplugin").length)

/-- Result of one installer run. -/
inductive InstallOutcome where
  | installed (name : Line)
  | noDescriptorFound
  | badZipRaised
  | moveRaised

/-- `DownloadManager.extract_plugin_zip` (download_utils.py, lines 56-77) as
a state machine over the abstract filesystem: the pair holds the outcome and
whether the temporary extraction directory still exists when the function
returns or the exception propagates. The temp dir is created, the archive
unzipped (`zipOk = false` models `FileUtilityManager.unzip` raising, which
propagates uncaught); with no descriptor the temp dir is removed and `None`
returned (lines 70-72); otherwise `shutil.move` runs (`moveOk = false`
models it raising, and the `shutil.rmtree(temp_dir)` on line 76 is only
reached after a successful move). -/
def extract_plugin_zip_model (zipOk : Bool) (archive : FsTree) (moveOk : Bool) :
    InstallOutcome × Bool :=
  if !zipOk then (.badZipRaised, true)
  else
    match extract_plugin_zip_name (lineOf "Temp_Extract_Plugin") archive with
    | none => (.noDescriptorFound, false)
    | some n => if moveOk then (.installed n, false) else (.moveRaised, true)

/-- `DownloadManager.extract_and_install_plugin` (download_utils.py, lines
148-206) as the same kind of state machine: a `BadZipFile` is caught and
`None` returned with the temp dir left in place (lines 203-205); with no
descriptor the function returns `None` without any cleanup (lines 185-187);
the `shutil.rmtree(temp_extraction_path)` on line 199 runs only after a
successful `shutil.move`, so a move failure propagates with the temp dir
left in place. -/
def extract_and_install_plugin_model (zipOk : Bool) (archive : FsTree)
    (moveOk : Bool) : InstallOutcome × Bool :=
  if !zipOk then (.badZipRaised, true)
  else
    match extract_plugin_zip_name (lineOf "Temp_Extracted_Plugin") archive with
    | none => (.noDescriptorFound, true)
    | some n => if moveOk then (.installed n, false) else (.moveRaised, true)

/-- The example archive layout `Foo/Bar.uplugin`. -/
def archiveFooBar : FsTree :=
  .node [] (.cons (lineOf "Foo") (.node [lineOf "Bar.uplugin"] .nil) .nil)

/-- An archive containing no descriptor file at all. -/
def archiveEmpty : FsTree := .node [] .nil

/-! ## The identifier-rewriter rename collision logic
(`FileUtilityManager.rename_file` / `rename_directory`,
file_utility_manager.py, lines 137-167)

The enclosing directory's listing is modelled as the list of entry names;
`os.path.exists(new_path)` is membership of the new name in that listing,
and `os.rename` replaces the old name by the new one. -/

/-- The check `old_value.lower() in file_name.lower()`. -/
def containsCI (hay needle : Line) : Bool :=
  decide (pyLower needle <:+: pyLower hay)

/-- `FileUtilityManager.rename_file` restricted to one directory listing:
returns the listing after the call. -/
def rename_file_model (fs : List Line) (name old newV : Line) : List Line :=
  if containsCI name old then
    let nn := case_preserving_replace_fum old newV name
    if nn ∈ fs then fs
    else fs.map fun e => if e = name then nn else e
  else fs

/-- `FileUtilityManager.rename_directory`: returns the listing after the
call together with the returned path (the new name on success, the original
directory name otherwise). -/
def rename_directory_model (fs : List Line) (dirName old newV : Line) :
    List Line × Line :=
  if containsCI dirName old then
    let nn := case_preserving_replace_fum old newV dirName
    if nn ∈ fs then (fs, dirName)
    else (fs.map fun e => if e = dirName then nn else e, nn)
  else (fs, dirName)

/-- The per-directory file loop of `update_directory_structure`: rename each
listed file in turn. -/
def process_files_model (fs : List Line) (names : List Line) (old newV : Line) :
    List Line :=
  names.foldl (fun acc n => rename_file_model acc n old newV) fs

/-! ## Project-name derivation (`FileUtilityManager.trim_unique_str`,
file_utility_manager.py, lines 56-70)

`hashlib.sha256` and `base64.b32encode` are embedded in full; bytes are
natural numbers below 256 and 32-bit words natural numbers below `2 ^ 32`. -/

/-- UTF-8 encoding of one code point (`str.encode()`). -/
def utf8Char (n : Nat) : List Nat :=
  if n < 0x80 then [n]
  else if n < 0x800 then [0xc0 + n / 64, 0x80 + n % 64]
  else if n < 0x10000 then [0xe0 + n / 4096, 0x80 + n / 64 % 64, 0x80 + n % 64]
  else [0xf0 + n / 262144, 0x80 + n / 4096 % 64, 0x80 + n / 64 % 64, 0x80 + n % 64]

/-- UTF-8 encoding of a string. -/
def pyUtf8 (s : Line) : List Nat := s.flatMap utf8Char

/-- Right rotation of a 32-bit word. -/
def rotr32 (k n : Nat) : Nat := n / 2 ^ k + n % 2 ^ k * 2 ^ (32 - k)

/-- Bitwise complement of a 32-bit word. -/
def not32 (n : Nat) : Nat := Nat.xor n (2 ^ 32 - 1)

/-- SHA-256 big sigma-0. -/
def bsig0 (x : Nat) : Nat := Nat.xor (Nat.xor (rotr32 2 x) (rotr32 13 x)) (rotr32 22 x)

/-- SHA-256 big sigma-1. -/
def bsig1 (x : Nat) : Nat := Nat.xor (Nat.xor (rotr32 6 x) (rotr32 11 x)) (rotr32 25 x)

/-- SHA-256 small sigma-0. -/
def ssig0 (x : Nat) : Nat := Nat.xor (Nat.xor (rotr32 7 x) (rotr32 18 x)) (x / 2 ^ 3)

/-- SHA-256 small sigma-1. -/
def ssig1 (x : Nat) : Nat := Nat.xor (Nat.xor (rotr32 17 x) (rotr32 19 x)) (x / 2 ^ 10)

/-- The 64 SHA-256 round constants. -/
def shaK : List Nat :=
  [1116352408, 1899447441, 3049323471, 3921009573, 961987163, 1508970993,
   2453635748, 2870763221, 3624381080, 310598401, 607225278, 1426881987,
   1925078388, 2162078206, 2614888103, 3248222580, 3835390401, 4022224774,
   264347078, 604807628, 770255983, 1249150122, 1555081692, 1996064986,
   2554220882, 2821834349, 2952996808, 3210313671, 3336571891, 3584528711,
   113926993, 338241895, 666307205, 773529912, 1294757372, 1396182291,
   1695183700, 1986661051, 2177026350, 2456956037, 2730485921, 2820302411,
   3259730800, 3345764771, 3516065817, 3600352804, 4094571909, 275423344,
   430227734, 506948616, 659060556, 883997877, 958139571, 1322822218,
   1537002063, 1747873779, 1955562222, 2024104815, 2227730452, 2361852424,
   2428436474, 2756734187, 3204031479, 3329325298]

/-- Big-endian byte decomposition of a number into `k` bytes. -/
def toBytesBE (k n : Nat) : List Nat :=
  (List.range k).map fun i => n / 2 ^ (8 * (k - 1 - i)) % 256

/-- SHA-256 message padding: `0x80`, zeros, then the bit length in 8
big-endian bytes, to a multiple of 64 bytes. -/
def sha256Pad (msg : List Nat) : List Nat :=
  msg ++ 0x80 :: List.replicate ((64 - (msg.length + 9) % 64) % 64) 0 ++
    toBytesBE 8 (8 * msg.length)

/-- Split into chunks of 64 bytes (`k` counts the remaining capacity of the
current chunk, `acc` holds it reversed). -/
def chunks64Aux : List Nat → Nat → List Nat → List (List Nat)
  | [], _, acc => if acc.isEmpty then [] else [acc.reverse]
  | b :: rest, k, acc =>
    if k ≤ 1 then (b :: acc).reverse :: chunks64Aux rest 64 []
    else chunks64Aux rest (k - 1) (b :: acc)

/-- Split a byte list into chunks of 64. -/
def chunks64 (l : List Nat) : List (List Nat) := chunks64Aux l 64 []

/-- Big-endian 32-bit words of a 64-byte block. -/
def bytesToWords : List Nat → List Nat
  | b0 :: b1 :: b2 :: b3 :: rest =>
    (((b0 * 256 + b1) * 256 + b2) * 256 + b3) :: bytesToWords rest
  | _ => []

/-- Message-schedule extension: prepend `k` more words to the reversed word
list. -/
def schedAux : Nat → List Nat → List Nat
  | 0, ws => ws
  | k + 1, ws =>
    schedAux k (((ssig1 (ws.getD 1 0) + ws.getD 6 0 + ssig0 (ws.getD 14 0) +
      ws.getD 15 0) % 2 ^ 32) :: ws)

/-- The 64-word message schedule of a block. -/
def schedule (ws16 : List Nat) : List Nat := (schedAux 48 ws16.reverse).reverse

/-- The eight working registers. -/
abbrev Sha8 := Nat × Nat × Nat × Nat × Nat × Nat × Nat × Nat

/-- One SHA-256 round with the round constant and schedule word. -/
def compressStep (st : Sha8) (kw : Nat × Nat) : Sha8 :=
  let t1 := (st.2.2.2.2.2.2.2 + bsig1 st.2.2.2.2.1 +
    Nat.xor (st.2.2.2.2.1 &&& st.2.2.2.2.2.1) (not32 st.2.2.2.2.1 &&& st.2.2.2.2.2.2.1) +
    kw.1 + kw.2) % 2 ^ 32
  let t2 := (bsig0 st.1 +
    Nat.xor (Nat.xor (st.1 &&& st.2.1) (st.1 &&& st.2.2.1)) (st.2.1 &&& st.2.2.1)) % 2 ^ 32
  ((t1 + t2) % 2 ^ 32, st.1, st.2.1, st.2.2.1, (st.2.2.2.1 + t1) % 2 ^ 32,
    st.2.2.2.2.1, st.2.2.2.2.2.1, st.2.2.2.2.2.2.1)

/-- Compression of one 64-byte block into the running hash state. -/
def compressBlock (h : Sha8) (block : List Nat) : Sha8 :=
  let st := (shaK.zip (schedule (bytesToWords block))).foldl compressStep h
  ((h.1 + st.1) % 2 ^ 32, (h.2.1 + st.2.1) % 2 ^ 32,
   (h.2.2.1 + st.2.2.1) % 2 ^ 32, (h.2.2.2.1 + st.2.2.2.1) % 2 ^ 32,
   (h.2.2.2.2.1 + st.2.2.2.2.1) % 2 ^ 32,
   (h.2.2.2.2.2.1 + st.2.2.2.2.2.1) % 2 ^ 32,
   (h.2.2.2.2.2.2.1 + st.2.2.2.2.2.2.1) % 2 ^ 32,
   (h.2.2.2.2.2.2.2 + st.2.2.2.2.2.2.2) % 2 ^ 32)

/-- The SHA-256 initial hash state. -/
def shaH0 : Sha8 :=
  (1779033703, 3144134277, 1013904242, 2773480762,
   1359893119, 2600822924, 528734635, 1541459225)

/-- `hashlib.sha256(msg).digest()`: the 32-byte digest. -/
def sha256 (msg : List Nat) : List Nat :=
  let f := (chunks64 (sha256Pad msg)).foldl compressBlock shaH0
  toBytesBE 4 f.1 ++ toBytesBE 4 f.2.1 ++ toBytesBE 4 f.2.2.1 ++
  toBytesBE 4 f.2.2.2.1 ++ toBytesBE 4 f.2.2.2.2.1 ++ toBytesBE 4 f.2.2.2.2.2.1 ++
  toBytesBE 4 f.2.2.2.2.2.2.1 ++ toBytesBE 4 f.2.2.2.2.2.2.2

/-- The RFC 4648 base32 alphabet, as code points. -/
def b32alphabet : List Nat := lineOf "ABCDEFGHIJKLMNOPQRSTUVWXYZ234567"

/-- The eight characters encoding one 40-bit group. -/
def b32chunkChars (n : Nat) : List Nat :=
  (List.range 8).map fun i => b32alphabet.getD (n / 2 ^ (5 * (7 - i)) % 32) 65

/-- `base64.b32encode`: full 5-byte groups become 8 characters; a final
partial group is zero-padded, encoded, truncated to the significant
characters and filled with `=` (code point 61). -/
def b32encodeAux : List Nat → List Nat
  | b0 :: b1 :: b2 :: b3 :: b4 :: rest =>
    b32chunkChars (((((b0 * 256 + b1) * 256 + b2) * 256 + b3) * 256) + b4) ++
      b32encodeAux rest
  | [] => []
  | [b0] => (b32chunkChars (b0 * 2 ^ 32)).take 2 ++ List.replicate 6 61
  | [b0, b1] => (b32chunkChars ((b0 * 256 + b1) * 2 ^ 24)).take 4 ++
      List.replicate 4 61
  | [b0, b1, b2] =>
      (b32chunkChars (((b0 * 256 + b1) * 256 + b2) * 2 ^ 16)).take 5 ++
        List.replicate 3 61
  | [b0, b1, b2, b3] =>
      (b32chunkChars ((((b0 * 256 + b1) * 256 + b2) * 256 + b3) * 2 ^ 8)).take 7 ++
        List.replicate 1 61

/-- `base64.b32encode(bs).decode()` as a code-point list. -/
def b32encode (bs : List Nat) : List Nat := b32encodeAux bs

/-- `FileUtilityManager.trim_unique_str(s)`: first 20 characters of the
base32-encoded SHA-256 of the UTF-8 encoding, with a leading digit replaced
by `A` (code point 65). The `[]` branch is unreachable (the encoding always
has 56 characters). -/
def trim_unique_str (s : Line) : Line :=
  match (b32encode (sha256 (pyUtf8 s))).take 20 with
  | c :: rest => if isDigitN c then 65 :: rest else c :: rest
  | [] => []

/-! ## Well-formedness predicates for parsed documents -/

/-- A string containing no line-boundary character (true of every line that
`str.splitlines` produces). -/
def noSepLine (l : Line) : Prop := ∀ c ∈ l, isPySep c = false

/-- Shape of a non-blank content line as stored by the parsers: no line
boundary inside, fixed under `strip`, non-empty, and not header-shaped. -/
def ContentOK (ln : Line) : Prop :=
  noSepLine ln ∧ pyStrip ln = ln ∧ ln ≠ [] ∧ isHeaderLine ln = false

/-- Shape of a stored line of the existing-file parse: a blank placeholder
or a content line. -/
def ExLineOK (ln : Line) : Prop := ln = [] ∨ ContentOK ln

/-- Shape of a stored section header. -/
def HeaderOK (h : Line) : Prop :=
  noSepLine h ∧ pyStrip h = h ∧ isHeaderLine h = true

/-- Well-formedness of the document built by the existing-file parse. -/
def ExDocOK (m : Doc) : Prop :=
  (m.map Prod.fst).Nodup ∧ ∀ s ∈ m, HeaderOK s.1 ∧ ∀ ln ∈ s.2, ExLineOK ln

/-- Well-formedness of the document built by the desired-content parse
(no blank placeholders). -/
def DsDocOK (m : Doc) : Prop :=
  (m.map Prod.fst).Nodup ∧ ∀ s ∈ m, HeaderOK s.1 ∧ ∀ ln ∈ s.2, ContentOK ln

/-- Invariant of the parse fold state: a well-formed document and, when a
current section is open, a well-formed header. -/
def StOK (st : Doc × Option Line) : Prop :=
  ExDocOK st.1 ∧ ∀ h, st.2 = some h → HeaderOK h

/-- Invariant of the desired-parse fold state. -/
def DsStOK (st : Doc × Option Line) : Prop :=
  DsDocOK st.1 ∧ ∀ h, st.2 = some h → HeaderOK h

/-- A document with every section's lines trimmed of leading and trailing
blanks, as the writer of `_merge_ini_file` renders them. -/
def trimDoc (m : Doc) : Doc := m.map fun s => (s.1, trimBlanks s.2)

/-- The sequence of lines the rendered output of a document consists of:
first section's header and lines, then, for every further section, a blank
separator line followed by its header and lines. `tailSecLinesRaw` is the
part after the first section. -/
def tailSecLinesRaw : Doc → List Line
  | [] => []
  | (h, ls) :: rest => [] :: h :: ls ++ tailSecLinesRaw rest

/-- All lines of the rendered output of a (pre-trimmed) document. -/
def secLinesRaw : Doc → List Line
  | [] => []
  | (h, ls) :: rest => h :: ls ++ tailSecLinesRaw rest

/-- What re-parsing the rendered output of a pre-trimmed document yields:
every section except the last gains one trailing blank placeholder
(absorbed from the blank separator line standing before the next header). -/
def addSepRaw : Doc → Doc
  | [] => []
  | [(h, ls)] => [(h, ls)]
  | (h, ls) :: s :: rest => (h, ls ++ [[]]) :: addSepRaw (s :: rest)

/-- Whether an existing line survives all the removal passes of a desired
section. -/
def keepAll (ds : List Line) (e : Line) : Bool := ds.all fun d => keepLine d e

/-! ## Basic lemmas about the merge building blocks -/

theorem head_dropWhile_not {α} {p : α → Bool} {l : List α} {x : α}
    (h : (l.dropWhile p).head? = some x) : p x = false := by
  induction l with
  | nil => simp at h
  | cons c r ih =>
    rw [List.dropWhile_cons] at h
    by_cases hp : p c
    · simp [hp] at h; exact ih h
    · simp [hp] at h; rw [← h]; simpa using hp

theorem dropWhile_eq_self_of_head {α} {p : α → Bool} {l : List α}
    (h : ∀ x, l.head? = some x → p x = false) : l.dropWhile p = l := by
  cases l with
  | nil => rfl
  | cons c r => rw [List.dropWhile_cons, h c rfl]; simp

theorem getLast?_of_suffix {α} {s l : List α} (h : s <:+ l) (hs : s ≠ []) :
    l.getLast? = s.getLast? := by
  obtain ⟨t, rfl⟩ := h
  rw [List.getLast?_append]
  cases hgl : s.getLast? with
  | none => exact absurd (List.getLast?_eq_none_iff.mp hgl) hs
  | some x => rfl

theorem pyStrip_nil : pyStrip [] = [] := rfl

theorem mem_of_mem_pyStrip {x : Nat} {l : Line} (h : x ∈ pyStrip l) : x ∈ l := by
  unfold pyStrip at h
  rw [List.mem_reverse] at h
  have h1 := (List.dropWhile_sublist (l := (l.dropWhile isPyWS).reverse) (p := isPyWS)).mem h
  rw [List.mem_reverse] at h1
  exact (List.dropWhile_sublist (l := l) (p := isPyWS)).mem h1

/-- A list whose first and last characters are not whitespace is unchanged
by `pyStrip`. -/
theorem pyStrip_eq_self_of_ends {l : Line}
    (h1 : ∀ x, l.head? = some x → isPyWS x = false)
    (h2 : ∀ x, l.getLast? = some x → isPyWS x = false) : pyStrip l = l := by
  unfold pyStrip
  rw [dropWhile_eq_self_of_head h1]
  rw [dropWhile_eq_self_of_head (by simpa [List.head?_reverse] using h2)]
  exact List.reverse_reverse l

theorem getLast?_pyStrip_not_ws {l : Line} {x : Nat}
    (h : (pyStrip l).getLast? = some x) : isPyWS x = false := by
  unfold pyStrip at h
  rw [List.getLast?_reverse] at h
  exact head_dropWhile_not h

theorem head?_pyStrip_not_ws {l : Line} {x : Nat}
    (h : (pyStrip l).head? = some x) : isPyWS x = false := by
  unfold pyStrip at h
  rw [List.head?_reverse] at h
  have hne : (l.dropWhile isPyWS).reverse.dropWhile isPyWS ≠ [] := by
    intro hnil; rw [hnil] at h; simp at h
  rw [← getLast?_of_suffix (List.dropWhile_suffix isPyWS) hne,
      List.getLast?_reverse] at h
  exact head_dropWhile_not h

theorem pyStrip_idem (l : Line) : pyStrip (pyStrip l) = pyStrip l :=
  pyStrip_eq_self_of_ends (fun _ h => head?_pyStrip_not_ws h)
    (fun _ h => getLast?_pyStrip_not_ws h)

/-! ### popTrailingBlanks -/

theorem popTrailingBlanks_eq_self {l : List Line}
    (h : ∀ x, l.getLast? = some x → x.isEmpty = false) : popTrailingBlanks l = l := by
  unfold popTrailingBlanks
  rw [dropWhile_eq_self_of_head (by simpa [List.head?_reverse] using h)]
  exact List.reverse_reverse l

theorem getLast?_popTrailingBlanks_not_blank {l : List Line} {x : Line}
    (h : (popTrailingBlanks l).getLast? = some x) : x.isEmpty = false := by
  unfold popTrailingBlanks at h
  rw [List.getLast?_reverse] at h
  exact head_dropWhile_not h

theorem popTrailingBlanks_idem (l : List Line) :
    popTrailingBlanks (popTrailingBlanks l) = popTrailingBlanks l :=
  popTrailingBlanks_eq_self fun _ h => getLast?_popTrailingBlanks_not_blank h

theorem mem_of_mem_popTrailingBlanks {x : Line} {l : List Line}
    (h : x ∈ popTrailingBlanks l) : x ∈ l := by
  unfold popTrailingBlanks at h
  rw [List.mem_reverse] at h
  have h1 := (List.dropWhile_sublist (l := l.reverse) (p := List.isEmpty)).mem h
  rwa [List.mem_reverse] at h1

theorem popTrailingBlanks_append_of_getLast {a b : List Line}
    (hb : ∀ x, b.getLast? = some x → x.isEmpty = false) (hbne : b ≠ []) :
    popTrailingBlanks (a ++ b) = a ++ b := by
  apply popTrailingBlanks_eq_self
  intro x hx
  rw [List.getLast?_append] at hx
  cases hgl : b.getLast? with
  | none => exact absurd (List.getLast?_eq_none_iff.mp hgl) hbne
  | some y =>
    rw [hgl] at hx
    simp only [Option.or_some, Option.some.injEq] at hx
    rw [← hx]
    exact hb y hgl

theorem popTrailingBlanks_append_blank (l : List Line) :
    popTrailingBlanks (l ++ [[]]) = popTrailingBlanks l := by
  unfold popTrailingBlanks
  rw [List.reverse_append]
  rfl

/-! ### dedupFirst -/

theorem mem_of_mem_dedupFirstAux {x : Line} {l seen : List Line}
    (h : x ∈ dedupFirstAux l seen) : x ∈ l := by
  induction l generalizing seen with
  | nil => simp [dedupFirstAux] at h
  | cons a r ih =>
    unfold dedupFirstAux at h
    by_cases ha : a ∈ seen
    · simp [ha] at h; exact List.mem_cons_of_mem a (ih h)
    · simp [ha] at h
      rcases h with h | h
      · exact h ▸ List.mem_cons_self a r
      · exact List.mem_cons_of_mem a (ih h)

theorem mem_of_mem_dedupFirst {x : Line} {l : List Line} (h : x ∈ dedupFirst l) :
    x ∈ l := mem_of_mem_dedupFirstAux h

/-! ### The per-section merge in closed form -/

theorem foldl_removeMatching (el : List Line) (ds : List Line) :
    ds.foldl (fun acc d => removeMatching d acc) el = el.filter (keepAll ds) := by
  induction ds generalizing el with
  | nil =>
    simp only [List.foldl_nil]
    exact (List.filter_eq_self.mpr fun a _ => by simp [keepAll]).symm
  | cons d rest ih =>
    rw [List.foldl_cons, ih]
    unfold removeMatching
    rw [List.filter_filter]
    apply List.filter_congr
    intro a _
    simp [keepAll, Bool.and_comm]

/-- The per-section merge, in closed form: filter the existing lines by all
removal passes, drop trailing blanks, append the de-duplicated desired lines. -/
theorem mergeLines_eq (el ds : List Line) :
    mergeLines el ds = popTrailingBlanks (el.filter (keepAll ds)) ++ dedupFirst ds := by
  unfold mergeLines
  rw [foldl_removeMatching]

/-- A stripped desired line is always removed by its own pass. -/
theorem keepLine_self_false {u : Line} (h : pyStrip u = u) : keepLine u u = false := by
  unfold keepLine
  rcases hk : extract_ini_key u with ⟨op, k⟩
  cases op with
  | none => simp [h, hk]
  | some c => simp [h]

theorem keepAll_eq_false_of_mem {u : Line} {ds : List Line} (hm : u ∈ ds)
    (h : pyStrip u = u) : keepAll ds u = false := by
  rw [← Bool.not_eq_true]
  intro hall
  have := List.all_eq_true.mp hall u hm
  rw [keepLine_self_false h] at this
  exact Bool.false_ne_true this

/-- Re-running the per-section merge with the same desired lines is the
identity, provided every desired line is `strip`-fixed (which the desired
parser guarantees). -/
theorem mergeLines_idem (el ds : List Line) (h : ∀ u ∈ ds, pyStrip u = u) :
    mergeLines (mergeLines el ds) ds = mergeLines el ds := by
  rw [mergeLines_eq, mergeLines_eq, List.filter_append]
  have hA : (popTrailingBlanks (el.filter (keepAll ds))).filter (keepAll ds) =
      popTrailingBlanks (el.filter (keepAll ds)) := by
    apply List.filter_eq_self.mpr
    intro a ha
    exact (List.mem_filter.mp (mem_of_mem_popTrailingBlanks ha)).2
  have hU : (dedupFirst ds).filter (keepAll ds) = [] := by
    apply List.filter_eq_nil_iff.mpr
    intro a ha
    have hmem := mem_of_mem_dedupFirst ha
    rw [keepAll_eq_false_of_mem hmem (h a hmem)]
    exact Bool.false_ne_true
  rw [hA, hU, List.append_nil, popTrailingBlanks_idem]

theorem mem_dedupFirstAux_of_mem {x : Line} {l seen : List Line} (h : x ∈ l) :
    x ∈ dedupFirstAux l seen ∨ x ∈ seen := by
  induction l generalizing seen with
  | nil => cases h
  | cons a r ih =>
    unfold dedupFirstAux
    by_cases ha : a ∈ seen
    · simp only [ha, if_true]
      rcases List.mem_cons.mp h with rfl | hr
      · exact Or.inr ha
      · exact ih hr
    · simp only [ha, if_false]
      rcases List.mem_cons.mp h with rfl | hr
      · exact Or.inl (List.mem_cons_self _ _)
      · rcases @ih (a :: seen) hr with h1 | h1
        · exact Or.inl (List.mem_cons_of_mem _ h1)
        · rcases List.mem_cons.mp h1 with rfl | h2
          · exact Or.inl (List.mem_cons_self _ _)
          · exact Or.inr h2

theorem mem_dedupFirst_of_mem {x : Line} {l : List Line} (h : x ∈ l) :
    x ∈ dedupFirst l := by
  rcases @mem_dedupFirstAux_of_mem x l [] h with h1 | h1
  · exact h1
  · cases h1

/-! ### Ordered-dictionary lemmas -/

theorem lookupSec_setSec_self (m : Doc) (k : Line) (v : List Line) :
    lookupSec (setSec m k v) k = some v := by
  induction m with
  | nil => simp [setSec, lookupSec]
  | cons s rest ih =>
    rcases s with ⟨h, ls⟩
    unfold setSec
    by_cases hk : h = k
    · simp [hk, lookupSec]
    · simp only [hk, if_false]
      rw [lookupSec, if_neg hk]
      exact ih

theorem lookupSec_setSec_ne (m : Doc) (k : Line) (v : List Line) {k' : Line}
    (hne : k' ≠ k) : lookupSec (setSec m k v) k' = lookupSec m k' := by
  induction m with
  | nil =>
    show lookupSec [(k, v)] k' = none
    simp only [lookupSec]
    rw [if_neg (Ne.symm hne)]
  | cons s rest ih =>
    rcases s with ⟨h, ls⟩
    unfold setSec
    by_cases hk : h = k
    · subst hk
      rw [if_pos rfl]
      simp only [lookupSec]
      rw [if_neg (Ne.symm hne), if_neg (Ne.symm hne)]
    · simp only [hk, if_false]
      simp only [lookupSec]
      by_cases hh : h = k'
      · simp [hh]
      · rw [if_neg hh, if_neg hh]
        exact ih

theorem hasSec_iff_mem_keys {m : Doc} {k : Line} :
    hasSec m k = true ↔ k ∈ m.map Prod.fst := by
  induction m with
  | nil => simp [hasSec, lookupSec]
  | cons s rest ih =>
    rcases s with ⟨h, ls⟩
    by_cases hk : h = k
    · subst hk
      simp [hasSec, lookupSec]
    · have heq : hasSec ((h, ls) :: rest) k = hasSec rest k := by
        simp only [hasSec, lookupSec]
        rw [if_neg hk]
      rw [heq, List.map_cons, List.mem_cons]
      constructor
      · intro hh
        exact Or.inr (ih.mp hh)
      · intro hh
        rcases hh with hh | hh
        · exact absurd hh.symm hk
        · exact ih.mpr hh

theorem hasSec_setSec_ne (m : Doc) (k : Line) (v : List Line) {k' : Line}
    (hne : k' ≠ k) : hasSec (setSec m k v) k' = hasSec m k' := by
  unfold hasSec
  rw [lookupSec_setSec_ne m k v hne]

theorem keys_setSec_mem {m : Doc} {k : Line} (v : List Line)
    (h : hasSec m k = true) : (setSec m k v).map Prod.fst = m.map Prod.fst := by
  induction m with
  | nil => simp [hasSec, lookupSec] at h
  | cons s rest ih =>
    rcases s with ⟨hd, ls⟩
    unfold setSec
    by_cases hk : hd = k
    · simp [hk]
    · simp only [hk, if_false, List.map_cons]
      rw [ih]
      unfold hasSec lookupSec at h
      rwa [if_neg hk] at h

theorem keys_setSec_not_mem {m : Doc} {k : Line} (v : List Line)
    (h : hasSec m k = false) :
    (setSec m k v).map Prod.fst = m.map Prod.fst ++ [k] := by
  induction m with
  | nil => simp [setSec]
  | cons s rest ih =>
    rcases s with ⟨hd, ls⟩
    unfold hasSec lookupSec at h
    by_cases hk : hd = k
    · simp [hk] at h
    · rw [if_neg hk] at h
      unfold setSec
      simp only [hk, if_false, List.map_cons]
      rw [ih h]
      rfl

theorem lookupSec_eq_none_of_not_mem {m : Doc} {k : Line}
    (h : k ∉ m.map Prod.fst) : lookupSec m k = none := by
  cases hl : lookupSec m k with
  | none => rfl
  | some v =>
    refine absurd (hasSec_iff_mem_keys.mp ?_) h
    unfold hasSec
    rw [hl]
    rfl

/-! ### Merge-loop lemmas -/

theorem lookupSec_mergeSections_not_key {E D : Doc} {sec : Line}
    (h : sec ∉ D.map Prod.fst) :
    lookupSec (mergeSections E D) sec = lookupSec E sec := by
  induction D generalizing E with
  | nil => rfl
  | cons sd rest ih =>
    rw [List.map_cons] at h
    have hne : sec ≠ sd.1 := fun he => h (he ▸ List.mem_cons_self _ _)
    have hrest : sec ∉ rest.map Prod.fst := fun he => h (List.mem_cons_of_mem _ he)
    unfold mergeSections at *
    rw [List.foldl_cons, ih hrest]
    unfold mergeSectionsStep
    exact lookupSec_setSec_ne _ _ _ hne

theorem keys_mergeSections {E D : Doc} (hnd : (D.map Prod.fst).Nodup) :
    (mergeSections E D).map Prod.fst =
      E.map Prod.fst ++ (D.map Prod.fst).filter (fun s => !hasSec E s) := by
  induction D generalizing E with
  | nil => simp [mergeSections]
  | cons sd rest ih =>
    rw [List.map_cons] at hnd ⊢
    have hnotin : sd.1 ∉ rest.map Prod.fst := (List.nodup_cons.mp hnd).1
    have hndr : (rest.map Prod.fst).Nodup := (List.nodup_cons.mp hnd).2
    unfold mergeSections at *
    rw [List.foldl_cons]
    rw [ih hndr]
    unfold mergeSectionsStep
    have hfc : ∀ s ∈ rest.map Prod.fst,
        (!hasSec (setSec E sd.1 (mergeLines ((lookupSec E sd.1).getD []) sd.2)) s) =
        (!hasSec E s) := by
      intro s hs
      have : s ≠ sd.1 := fun he => hnotin (he ▸ hs)
      rw [hasSec_setSec_ne _ _ _ this]
    rw [List.filter_congr hfc]
    by_cases hE : hasSec E sd.1
    · rw [keys_setSec_mem _ hE, List.filter_cons]
      simp [hE]
    · rw [keys_setSec_not_mem _ (by simpa using hE), List.filter_cons]
      simp [hE]

theorem lookupSec_mergeSections_key {E D : Doc} {sec : Line} {ds : List Line}
    (hnd : (D.map Prod.fst).Nodup) (hmem : (sec, ds) ∈ D) :
    lookupSec (mergeSections E D) sec =
      some (mergeLines ((lookupSec E sec).getD []) ds) := by
  induction D generalizing E with
  | nil => cases hmem
  | cons sd rest ih =>
    rw [List.map_cons] at hnd
    have hnotin : sd.1 ∉ rest.map Prod.fst := (List.nodup_cons.mp hnd).1
    have hndr : (rest.map Prod.fst).Nodup := (List.nodup_cons.mp hnd).2
    unfold mergeSections at *
    rw [List.foldl_cons]
    rcases List.mem_cons.mp hmem with rfl | hrest
    · have : sec ∉ rest.map Prod.fst := hnotin
      rw [show rest.foldl mergeSectionsStep (mergeSectionsStep E (sec, ds)) =
            mergeSections (mergeSectionsStep E (sec, ds)) rest from rfl]
      rw [lookupSec_mergeSections_not_key this]
      unfold mergeSectionsStep
      exact lookupSec_setSec_self _ _ _
    · have hne : sec ≠ sd.1 := by
        intro he
        exact hnotin (he ▸ List.mem_map.mpr ⟨(sec, ds), hrest, rfl⟩)
      rw [ih hndr hrest]
      unfold mergeSectionsStep
      rw [lookupSec_setSec_ne _ _ _ hne]

/-! ### Reductions of keepLine by the desired line's shape -/

theorem keepLine_scalar {d k : Line} (e : Line) (hk : extract_ini_key d = (none, k)) :
    keepLine d e =
      !((extract_ini_key (pyStrip e)).2 == k && (extract_ini_key (pyStrip e)).1.isNone) := by
  simp [keepLine, hk]

theorem keepLine_op {d k : Line} {c : Nat} (e : Line)
    (hk : extract_ini_key d = (some c, k)) : keepLine d e = !(pyStrip e == d) := by
  simp [keepLine, hk]

/-! ## Claim theorems for the merger's per-line semantics -/

/-- C6: for every desired section and every desired line without a leading
`+`/`-` operator, the merge removes from the existing section every
operator-free line with the same key and appends the desired line, so the
merged section contains the desired line and any operator-free line with
that key in the result is one of the desired lines; in particular merging
desired `[A] X=2` into existing `[A] X=1` yields a section containing
exactly `X=2`. -/
theorem c6_scalar_override :
    (∀ (el ds : List Line) (d k : Line), d ∈ ds → extract_ini_key d = (none, k) →
      d ∈ mergeLines el ds ∧
        ∀ e ∈ mergeLines el ds, extract_ini_key (pyStrip e) = (none, k) → e ∈ ds) ∧
    merge_ini_content (some (lineOf "[A]\nX=1\n")) (lineOf "[A]\nX=2\n") =
      lineOf "[A]\nX=2\n" := by
  refine ⟨?_, by decide⟩
  intro el ds d k hd hk
  rw [mergeLines_eq]
  constructor
  · exact List.mem_append_right _ (mem_dedupFirst_of_mem hd)
  · intro e he hek
    rcases List.mem_append.mp he with h | h
    · exfalso
      have hkeep := (List.mem_filter.mp (mem_of_mem_popTrailingBlanks h)).2
      have hall := List.all_eq_true.mp hkeep d hd
      rw [keepLine_scalar e hk, hek] at hall
      simp at hall
    · exact mem_of_mem_dedupFirst h

/-- Witness for C6 at the spec's own example: `X=2` is in the merged section
when existing `[A]` holds `X=1` and desired `[A]` holds `X=2`. -/
theorem c6_scalar_override_witness :
    lineOf "X=2" ∈ mergeLines [lineOf "X=1"] [lineOf "X=2"] :=
  (c6_scalar_override.1 [lineOf "X=1"] [lineOf "X=2"] (lineOf "X=2") (lineOf "X")
    (by decide) (by decide)).1

/-- C7: a desired line carrying a `+`/`-` operator removes exactly the
existing lines textually identical to it (after stripping) before being
appended; hence merging desired `[A] +Y=bar` into existing `[A] +Y=foo`
yields a section containing `+Y=foo` and `+Y=bar` each exactly once, and
applying the same merge a second time changes nothing. -/
theorem c7_list_accumulation :
    (∀ (d : Line) (c : Nat) (k : Line) (el : List Line),
        extract_ini_key d = (some c, k) →
        removeMatching d el = el.filter (fun e => !(pyStrip e == d))) ∧
    merge_ini_content (some (lineOf "[A]\n+Y=foo\n")) (lineOf "[A]\n+Y=bar\n") =
      lineOf "[A]\n+Y=foo\n+Y=bar\n" ∧
    merge_ini_content (some (lineOf "[A]\n+Y=foo\n+Y=bar\n")) (lineOf "[A]\n+Y=bar\n") =
      lineOf "[A]\n+Y=foo\n+Y=bar\n" := by
  refine ⟨?_, by decide, by decide⟩
  intro d c k el hk
  unfold removeMatching
  apply List.filter_congr
  intro e _
  exact keepLine_op e hk

/-- Witness for C7: the operator-line removal pass at `+Y=bar` over an
existing `+Y=foo` line keeps exactly the non-identical lines. -/
theorem c7_list_accumulation_witness :
    removeMatching (lineOf "+Y=bar") [lineOf "+Y=foo"] =
      List.filter (fun e => !(pyStrip e == lineOf "+Y=bar")) [lineOf "+Y=foo"] :=
  c7_list_accumulation.1 (lineOf "+Y=bar") 43 (lineOf "Y") [lineOf "+Y=foo"]
    (by decide)

/-! ## Parse invariants -/

theorem splitlinesAux_noSep {t : Line} :
    ∀ {cr : Bool} {acc : Line}, (∀ c ∈ acc, isPySep c = false) →
    ∀ ln ∈ splitlinesAux cr t acc, ∀ c ∈ ln, isPySep c = false := by
  induction t with
  | nil =>
    intro cr acc hacc ln hln
    unfold splitlinesAux at hln
    by_cases he : acc.isEmpty
    · rw [if_pos he] at hln
      cases hln
    · rw [if_neg he] at hln
      rcases List.mem_singleton.mp hln with rfl
      intro c hc
      exact hacc c (List.mem_reverse.mp hc)
  | cons c rest ih =>
    intro cr acc hacc ln hln
    unfold splitlinesAux at hln
    by_cases h1 : cr && c == 10
    · rw [if_pos h1] at hln
      exact ih hacc ln hln
    · rw [if_neg h1] at hln
      by_cases h2 : c == 13
      · rw [if_pos h2] at hln
        rcases List.mem_cons.mp hln with rfl | hln
        · intro x hx
          exact hacc x (List.mem_reverse.mp hx)
        · exact ih (by intro x hx; cases hx) ln hln
      · rw [if_neg h2] at hln
        by_cases h3 : isPySep c
        · rw [if_pos h3] at hln
          rcases List.mem_cons.mp hln with rfl | hln
          · intro x hx
            exact hacc x (List.mem_reverse.mp hx)
          · exact ih (by intro x hx; cases hx) ln hln
        · rw [if_neg h3] at hln
          refine ih ?_ ln hln
          intro x hx
          rcases List.mem_cons.mp hx with rfl | hx
          · simpa using h3
          · exact hacc x hx

theorem pySplitlines_noSep {t : Line} {ln : Line} (h : ln ∈ pySplitlines t) :
    noSepLine ln :=
  fun c hc => splitlinesAux_noSep (by intro x hx; cases hx) ln h c hc

theorem noSepLine_pyStrip {l : Line} (h : noSepLine l) : noSepLine (pyStrip l) :=
  fun c hc => h c (mem_of_mem_pyStrip hc)

/-- A generic fold-invariant helper. -/
theorem foldl_preserve {α β : Type} {P : β → Prop} {Q : α → Prop}
    {f : β → α → β} {l : List α} {b : β} (hb : P b) (hl : ∀ a ∈ l, Q a)
    (hf : ∀ b a, P b → Q a → P (f b a)) : P (l.foldl f b) := by
  induction l generalizing b with
  | nil => exact hb
  | cons a r ih =>
    exact ih (hf b a hb (hl a (List.mem_cons_self a r)))
      (fun x hx => hl x (List.mem_cons_of_mem a hx))

theorem keys_appendToSec (m : Doc) (k v : Line) :
    (appendToSec m k v).map Prod.fst = m.map Prod.fst := by
  induction m with
  | nil => rfl
  | cons s rest ih =>
    rcases s with ⟨h, ls⟩
    unfold appendToSec
    by_cases hk : h = k
    · simp [hk]
    · simp only [hk, if_false, List.map_cons]
      rw [ih]

theorem mem_appendToSec {m : Doc} {k v : Line} {s : Line × List Line}
    (h : s ∈ appendToSec m k v) :
    ∃ t ∈ m, s.1 = t.1 ∧ (s.2 = t.2 ∨ s.2 = t.2 ++ [v]) := by
  induction m with
  | nil => cases h
  | cons u rest ih =>
    rcases u with ⟨hu, lu⟩
    unfold appendToSec at h
    by_cases hk : hu = k
    · rw [if_pos hk] at h
      rcases List.mem_cons.mp h with rfl | h
      · exact ⟨(hu, lu), List.mem_cons_self _ _, rfl, Or.inr rfl⟩
      · exact ⟨s, List.mem_cons_of_mem _ h, rfl, Or.inl rfl⟩
    · rw [if_neg hk] at h
      rcases List.mem_cons.mp h with rfl | h
      · exact ⟨(hu, lu), List.mem_cons_self _ _, rfl, Or.inl rfl⟩
      · rcases ih h with ⟨t, ht, h1, h2⟩
        exact ⟨t, List.mem_cons_of_mem _ ht, h1, h2⟩

theorem ExDocOK_setdefault {m : Doc} {h : Line} (hm : ExDocOK m)
    (hh : HeaderOK h) : ExDocOK (setdefaultSec m h) := by
  unfold setdefaultSec
  by_cases hp : hasSec m h
  · rwa [if_pos hp]
  · rw [if_neg hp]
    constructor
    · rw [List.map_append]
      rw [List.nodup_append]
      refine ⟨hm.1, List.nodup_singleton _, ?_⟩
      intro a ha hb
      rcases List.mem_singleton.mp hb with rfl
      exact hp (hasSec_iff_mem_keys.mpr ha)
    · intro s hs
      rcases List.mem_append.mp hs with hs | hs
      · exact hm.2 s hs
      · rcases List.mem_singleton.mp hs with rfl
        exact ⟨hh, by intro ln hln; cases hln⟩

theorem ExDocOK_appendToSec {m : Doc} {k v : Line} (hm : ExDocOK m)
    (hv : ExLineOK v) : ExDocOK (appendToSec m k v) := by
  constructor
  · rw [keys_appendToSec]
    exact hm.1
  · intro s hs
    rcases mem_appendToSec hs with ⟨t, ht, h1, h2⟩
    refine ⟨h1 ▸ (hm.2 t ht).1, ?_⟩
    intro ln hln
    rcases h2 with h2 | h2
    · exact (hm.2 t ht).2 ln (h2 ▸ hln)
    · rw [h2] at hln
      rcases List.mem_append.mp hln with hln | hln
      · exact (hm.2 t ht).2 ln hln
      · rcases List.mem_singleton.mp hln with rfl
        exact hv

theorem DsDocOK_setdefault {m : Doc} {h : Line} (hm : DsDocOK m)
    (hh : HeaderOK h) : DsDocOK (setdefaultSec m h) := by
  unfold setdefaultSec
  by_cases hp : hasSec m h
  · rwa [if_pos hp]
  · rw [if_neg hp]
    constructor
    · rw [List.map_append, List.nodup_append]
      refine ⟨hm.1, List.nodup_singleton _, ?_⟩
      intro a ha hb
      rcases List.mem_singleton.mp hb with rfl
      exact hp (hasSec_iff_mem_keys.mpr ha)
    · intro s hs
      rcases List.mem_append.mp hs with hs | hs
      · exact hm.2 s hs
      · rcases List.mem_singleton.mp hs with rfl
        exact ⟨hh, by intro ln hln; cases hln⟩

theorem DsDocOK_appendToSec {m : Doc} {k v : Line} (hm : DsDocOK m)
    (hv : ContentOK v) : DsDocOK (appendToSec m k v) := by
  constructor
  · rw [keys_appendToSec]
    exact hm.1
  · intro s hs
    rcases mem_appendToSec hs with ⟨t, ht, h1, h2⟩
    refine ⟨h1 ▸ (hm.2 t ht).1, ?_⟩
    intro ln hln
    rcases h2 with h2 | h2
    · exact (hm.2 t ht).2 ln (h2 ▸ hln)
    · rw [h2] at hln
      rcases List.mem_append.mp hln with hln | hln
      · exact (hm.2 t ht).2 ln hln
      · rcases List.mem_singleton.mp hln with rfl
        exact hv

theorem HeaderOK_of_parse {raw : Line} (hraw : noSepLine raw)
    (hh : isHeaderLine (pyStrip raw) = true) : HeaderOK (pyStrip raw) :=
  ⟨noSepLine_pyStrip hraw, pyStrip_idem raw, hh⟩

theorem ContentOK_of_parse {raw : Line} (hraw : noSepLine raw)
    (hne : (pyStrip raw).isEmpty = false)
    (hh : isHeaderLine (pyStrip raw) = false) : ContentOK (pyStrip raw) := by
  refine ⟨noSepLine_pyStrip hraw, pyStrip_idem raw, ?_, hh⟩
  intro he
  rw [he] at hne
  simp at hne

theorem parseExistingStep_inv {doc : Doc} {cur : Option Line} {raw : Line}
    (hst : StOK (doc, cur)) (hraw : noSepLine raw) :
    StOK (parseExistingStep (doc, cur) raw) := by
  have hdoc : ExDocOK doc := hst.1
  have hcur : ∀ h, cur = some h → HeaderOK h := hst.2
  unfold parseExistingStep
  by_cases hb : (pyStrip raw).isEmpty
  · rw [if_pos hb]
    cases cur with
    | none => exact hst
    | some c =>
      refine ⟨ExDocOK_appendToSec (ExDocOK_setdefault hdoc (hcur c rfl))
        (Or.inl rfl), ?_⟩
      intro h hh
      injection hh with hh2
      exact hh2 ▸ hcur c rfl
  · rw [if_neg hb]
    by_cases hhd : isHeaderLine (pyStrip raw)
    · rw [if_pos hhd]
      refine ⟨ExDocOK_setdefault hdoc (HeaderOK_of_parse hraw hhd), ?_⟩
      intro h hh
      injection hh with hh2
      exact hh2 ▸ HeaderOK_of_parse hraw hhd
    · rw [if_neg hhd]
      cases cur with
      | none => exact hst
      | some c =>
        refine ⟨ExDocOK_appendToSec (ExDocOK_setdefault hdoc (hcur c rfl))
          (Or.inr (ContentOK_of_parse hraw (by simpa using hb)
            (by simpa using hhd))), ?_⟩
        intro h hh
        injection hh with hh2
        exact hh2 ▸ hcur c rfl

theorem parseExistingDoc_inv (t : Line) : ExDocOK (parseExistingDoc t) := by
  unfold parseExistingDoc
  have hfold : StOK ((pySplitlines t).foldl parseExistingStep ([], none)) := by
    refine foldl_preserve ?_ (fun a ha => pySplitlines_noSep ha) ?_
    · exact ⟨⟨List.nodup_nil, by intro x hx; cases hx⟩, by intro h hh; cases hh⟩
    · intro st raw hst hraw
      obtain ⟨doc, cur⟩ := st
      exact parseExistingStep_inv hst hraw
  exact hfold.1

theorem parseDesiredStep_inv {doc : Doc} {cur : Option Line} {raw : Line}
    (hst : DsStOK (doc, cur)) (hraw : noSepLine raw) :
    DsStOK (parseDesiredStep (doc, cur) raw) := by
  have hdoc : DsDocOK doc := hst.1
  have hcur : ∀ h, cur = some h → HeaderOK h := hst.2
  unfold parseDesiredStep
  by_cases hb : (pyStrip raw).isEmpty
  · rwa [if_pos hb]
  · rw [if_neg hb]
    by_cases hhd : isHeaderLine (pyStrip raw)
    · rw [if_pos hhd]
      refine ⟨DsDocOK_setdefault hdoc (HeaderOK_of_parse hraw hhd), ?_⟩
      intro h hh
      injection hh with hh2
      exact hh2 ▸ HeaderOK_of_parse hraw hhd
    · rw [if_neg hhd]
      cases cur with
      | none => exact hst
      | some c =>
        refine ⟨DsDocOK_appendToSec hdoc
          (ContentOK_of_parse hraw (by simpa using hb) (by simpa using hhd)), ?_⟩
        intro h hh
        injection hh with hh2
        exact hh2 ▸ hcur c rfl

theorem parseDesiredDoc_inv (t : Line) : DsDocOK (parseDesiredDoc t) := by
  unfold parseDesiredDoc
  have hfold : DsStOK ((pySplitlines t).foldl parseDesiredStep ([], none)) := by
    refine foldl_preserve ?_ (fun a ha => pySplitlines_noSep ha) ?_
    · exact ⟨⟨List.nodup_nil, by intro x hx; cases hx⟩, by intro h hh; cases hh⟩
    · intro st raw hst hraw
      obtain ⟨doc, cur⟩ := st
      exact parseDesiredStep_inv hst hraw
  exact hfold.1

/-! ## Claim C3: untouched sections -/

/-- C3 (amended): a section of the existing document whose header does not
occur in the desired document keeps exactly its parsed line sequence (each
line stripped of surrounding whitespace, blank lines kept as empty
placeholders) in the merged document, all existing sections keep their
relative order, and sections present only in the desired document are
appended after them, in desired order. -/
theorem c3_untouched_amended (t d : Line) :
    (∀ sec ls, lookupSec (parseExistingDoc t) sec = some ls →
        hasSec (parseDesiredDoc d) sec = false →
        lookupSec (mergeSections (parseExistingDoc t) (parseDesiredDoc d)) sec =
          some ls) ∧
    (mergeSections (parseExistingDoc t) (parseDesiredDoc d)).map Prod.fst =
      (parseExistingDoc t).map Prod.fst ++
        ((parseDesiredDoc d).map Prod.fst).filter
          (fun sec => !hasSec (parseExistingDoc t) sec) := by
  constructor
  · intro sec ls hls hnd
    have hnotmem : sec ∉ (parseDesiredDoc d).map Prod.fst := by
      intro hmem
      have hcontra := hasSec_iff_mem_keys.mpr hmem
      rw [hnd] at hcontra
      exact Bool.false_ne_true hcontra
    rw [lookupSec_mergeSections_not_key hnotmem]
    exact hls
  · exact keys_mergeSections (parseDesiredDoc_inv d).1

/-- Witness for C3 (amended): section `[A]` is untouched when the desired
document only has section `[B]`. -/
theorem c3_untouched_witness :
    lookupSec (mergeSections (parseExistingDoc (lineOf "[A]\nX=1\n"))
        (parseDesiredDoc (lineOf "[B]\nY=2\n"))) (lineOf "[A]") =
      some [lineOf "X=1"] :=
  (c3_untouched_amended (lineOf "[A]\nX=1\n") (lineOf "[B]\nY=2\n")).1
    (lineOf "[A]") [lineOf "X=1"] (by decide) (by decide)

/-- C3 counterexample to byte-identical reproduction: the existing section
`[A]` holds the line `  X=1` (leading whitespace); it is not mentioned in
the desired document, yet the merge output normalizes it to `X=1`, so the
original bytes of the untouched section do not appear in the output. -/
theorem c3_untouched_counterexample :
    merge_ini_content (some (lineOf "[A]\n  X=1\n")) (lineOf "[B]\nY=2\n") =
      lineOf "[A]\nX=1\n\n[B]\nY=2\n" ∧
    ¬ lineOf "  X=1" <:+:
        merge_ini_content (some (lineOf "[A]\n  X=1\n")) (lineOf "[B]\nY=2\n") :=
  ⟨by decide, by decide⟩

/-! ## Round trip: rendering then re-parsing a merged document -/

theorem renderLines_append (a b : List Line) :
    renderLines (a ++ b) = renderLines a ++ renderLines b := by
  induction a with
  | nil => rfl
  | cons ln r ih =>
    show ln ++ 10 :: renderLines (r ++ b) = (ln ++ 10 :: renderLines r) ++ renderLines b
    rw [ih]
    simp

theorem lookupSec_head (h : Line) (ls : List Line) (rest : Doc) :
    lookupSec ((h, ls) :: rest) h = some ls := by
  show (if h = h then some ls else lookupSec rest h) = some ls
  rw [if_pos rfl]

theorem lookupSec_cons_ne {h k : Line} (ls : List Line) (rest : Doc)
    (hne : h ≠ k) : lookupSec ((h, ls) :: rest) k = lookupSec rest k := by
  show (if h = k then some ls else lookupSec rest k) = lookupSec rest k
  rw [if_neg hne]

theorem renderDocAux_skip {h : Line} {ls : List Line} {m : Doc} {ks : List Line}
    (hk : ∀ k ∈ ks, k ≠ h) :
    renderDocAux ((h, ls) :: m) ks = renderDocAux m ks := by
  induction ks with
  | nil => rfl
  | cons k kr ih =>
    show 10 :: renderSection k ((lookupSec ((h, ls) :: m) k).getD []) ++
        renderDocAux ((h, ls) :: m) kr =
      10 :: renderSection k ((lookupSec m k).getD []) ++ renderDocAux m kr
    rw [lookupSec_cons_ne _ _ (Ne.symm (hk k (List.mem_cons_self _ _)))]
    rw [ih (fun x hx => hk x (List.mem_cons_of_mem _ hx))]

theorem renderDocAux_eq_tail {m : Doc} (hnd : (m.map Prod.fst).Nodup) :
    renderDocAux m (m.map Prod.fst) = renderLines (tailSecLinesRaw (trimDoc m)) := by
  induction m with
  | nil => rfl
  | cons s rest ih =>
    rcases s with ⟨h, ls⟩
    rw [List.map_cons] at hnd ⊢
    dsimp only at hnd ⊢
    have hnotin : h ∉ rest.map Prod.fst := (List.nodup_cons.mp hnd).1
    have hndr := (List.nodup_cons.mp hnd).2
    show 10 :: renderSection h ((lookupSec ((h, ls) :: rest) h).getD []) ++
        renderDocAux ((h, ls) :: rest) (rest.map Prod.fst) =
      renderLines (tailSecLinesRaw (trimDoc ((h, ls) :: rest)))
    rw [lookupSec_head]
    rw [renderDocAux_skip (fun k hk he => hnotin (by rw [← he]; exact hk)), ih hndr]
    show 10 :: renderSection h ls ++ renderLines (tailSecLinesRaw (trimDoc rest)) =
      renderLines (([] :: h :: trimBlanks ls) ++ tailSecLinesRaw (trimDoc rest))
    rw [renderLines_append]
    rfl

theorem renderDoc_eq_renderLines {m : Doc} (hnd : (m.map Prod.fst).Nodup) :
    renderDoc m (m.map Prod.fst) = renderLines (secLinesRaw (trimDoc m)) := by
  cases m with
  | nil => rfl
  | cons s rest =>
    rcases s with ⟨h, ls⟩
    rw [List.map_cons] at hnd ⊢
    dsimp only at hnd ⊢
    have hnotin : h ∉ rest.map Prod.fst := (List.nodup_cons.mp hnd).1
    have hndr := (List.nodup_cons.mp hnd).2
    show renderSection h ((lookupSec ((h, ls) :: rest) h).getD []) ++
        renderDocAux ((h, ls) :: rest) (rest.map Prod.fst) =
      renderLines (secLinesRaw (trimDoc ((h, ls) :: rest)))
    rw [lookupSec_head]
    rw [renderDocAux_skip (fun k hk he => hnotin (by rw [← he]; exact hk))]
    rw [renderDocAux_eq_tail hndr]
    show renderSection h ls ++ renderLines (tailSecLinesRaw (trimDoc rest)) =
      renderLines ((h :: trimBlanks ls) ++ tailSecLinesRaw (trimDoc rest))
    rw [renderLines_append]
    rfl

theorem splitlinesAux_cons (cr : Bool) (c : Nat) (rest acc : Line) :
    splitlinesAux cr (c :: rest) acc =
      if cr && c == 10 then splitlinesAux false rest acc
      else if c == 13 then acc.reverse :: splitlinesAux true rest []
      else if isPySep c then acc.reverse :: splitlinesAux false rest []
      else splitlinesAux false rest (c :: acc) := rfl

theorem splitlinesAux_append_nl {x : Line} (hx : noSepLine x) (rest acc : Line) :
    splitlinesAux false (x ++ 10 :: rest) acc =
      (acc.reverse ++ x) :: splitlinesAux false rest [] := by
  induction x generalizing acc with
  | nil =>
    rw [List.nil_append, splitlinesAux_cons]
    simp [isPySep]
  | cons c r ih =>
    have hc : isPySep c = false := hx c (List.mem_cons_self _ _)
    have hr : noSepLine r := fun a ha => hx a (List.mem_cons_of_mem _ ha)
    have h13 : (c == 13) = false := by
      by_contra hcc
      rw [Bool.not_eq_false] at hcc
      have hce : c = 13 := eq_of_beq hcc
      rw [hce] at hc
      simp [isPySep] at hc
    rw [List.cons_append, splitlinesAux_cons, Bool.false_and]
    simp only [Bool.false_eq_true, if_false, h13, hc]
    rw [ih hr]
    simp

theorem pySplitlines_renderLines {L : List Line} (hL : ∀ ln ∈ L, noSepLine ln) :
    pySplitlines (renderLines L) = L := by
  induction L with
  | nil => rfl
  | cons ln rest ih =>
    show splitlinesAux false (ln ++ 10 :: renderLines rest) [] = ln :: rest
    rw [splitlinesAux_append_nl (hL ln (List.mem_cons_self _ _))]
    rw [show splitlinesAux false (renderLines rest) [] = pySplitlines (renderLines rest)
      from rfl]
    rw [ih (fun x hx => hL x (List.mem_cons_of_mem _ hx))]
    simp

/-! ### Re-parsing the rendered lines -/

theorem ExLineOK_noSep {ln : Line} (h : ExLineOK ln) : noSepLine ln := by
  rcases h with rfl | hC
  · intro c hc
    cases hc
  · exact hC.1

theorem mem_of_mem_trimBlanks {x : Line} {ls : List Line} (h : x ∈ trimBlanks ls) :
    x ∈ ls := by
  unfold trimBlanks at h
  exact (List.dropWhile_sublist (l := ls) (p := List.isEmpty)).mem
    (mem_of_mem_popTrailingBlanks h)

theorem keys_trimDoc (m : Doc) : (trimDoc m).map Prod.fst = m.map Prod.fst := by
  simp [trimDoc]

theorem isHeaderLine_ne_nil {l : Line} (h : isHeaderLine l = true) : l ≠ [] := by
  intro he
  rw [he] at h
  simp [isHeaderLine] at h

theorem setdefaultSec_of_hasSec {m : Doc} {k : Line} (h : hasSec m k = true) :
    setdefaultSec m k = m := by
  unfold setdefaultSec
  rw [if_pos h]

theorem setdefaultSec_of_not_hasSec {m : Doc} {k : Line} (h : hasSec m k = false) :
    setdefaultSec m k = m ++ [(k, [])] := by
  unfold setdefaultSec
  rw [if_neg (by rw [h]; exact Bool.false_ne_true)]

theorem hasSec_append_last (pre : Doc) (cur : Line) (cv : List Line) :
    hasSec (pre ++ [(cur, cv)]) cur = true := by
  apply hasSec_iff_mem_keys.mpr
  rw [List.map_append]
  exact List.mem_append_right _ (by simp)

theorem not_hasSec_of_not_mem {m : Doc} {k : Line} (h : k ∉ m.map Prod.fst) :
    hasSec m k = false := by
  cases hh : hasSec m k with
  | false => rfl
  | true => exact absurd (hasSec_iff_mem_keys.mp hh) h

theorem appendToSec_last {pre : Doc} {cur : Line} {cv : List Line} (v : Line)
    (h : cur ∉ pre.map Prod.fst) :
    appendToSec (pre ++ [(cur, cv)]) cur v = pre ++ [(cur, cv ++ [v])] := by
  induction pre with
  | nil =>
    show appendToSec [(cur, cv)] cur v = [(cur, cv ++ [v])]
    unfold appendToSec
    rw [if_pos rfl]
  | cons s pr ih =>
    rcases s with ⟨hp, lp⟩
    rw [List.map_cons] at h
    have hne : hp ≠ cur := fun he => h (by rw [he]; exact List.mem_cons_self _ _)
    rw [List.cons_append]
    show (if hp = cur then (hp, lp ++ [v]) :: (pr ++ [(cur, cv)])
          else (hp, lp) :: appendToSec (pr ++ [(cur, cv)]) cur v) =
      (hp, lp) :: (pr ++ [(cur, cv ++ [v])])
    rw [if_neg hne, ih (fun he => h (List.mem_cons_of_mem _ he))]

theorem parseExistingStep_blank (doc : Doc) (cur : Line) :
    parseExistingStep (doc, some cur) [] =
      (appendToSec (setdefaultSec doc cur) cur [], some cur) := rfl

theorem parseExistingStep_content {ln : Line} (doc : Doc) (cur : Line)
    (hC : ContentOK ln) :
    parseExistingStep (doc, some cur) ln =
      (appendToSec (setdefaultSec doc cur) cur ln, some cur) := by
  unfold parseExistingStep
  rw [hC.2.1]
  rw [if_neg (by rw [List.isEmpty_iff]; exact hC.2.2.1)]
  rw [if_neg (by rw [hC.2.2.2]; exact Bool.false_ne_true)]

theorem parseExistingStep_header {h : Line} (doc : Doc) (cur : Option Line)
    (hH : HeaderOK h) :
    parseExistingStep (doc, cur) h = (setdefaultSec doc h, some h) := by
  unfold parseExistingStep
  rw [hH.2.1]
  rw [if_neg (by rw [List.isEmpty_iff]; exact isHeaderLine_ne_nil hH.2.2)]
  rw [if_pos hH.2.2]

theorem foldl_parse_content {ls : List Line} : ∀ {pre : Doc} {cur : Line}
    {cv : List Line}, cur ∉ pre.map Prod.fst → (∀ ln ∈ ls, ExLineOK ln) →
    ls.foldl parseExistingStep (pre ++ [(cur, cv)], some cur) =
      (pre ++ [(cur, cv ++ ls)], some cur) := by
  induction ls with
  | nil =>
    intro pre cur cv _ _
    simp
  | cons ln lr ih =>
    intro pre cur cv h1 h2
    rw [List.foldl_cons]
    have hstep : parseExistingStep (pre ++ [(cur, cv)], some cur) ln =
        (pre ++ [(cur, cv ++ [ln])], some cur) := by
      rcases h2 ln (List.mem_cons_self _ _) with rfl | hC
      · rw [parseExistingStep_blank,
          setdefaultSec_of_hasSec (hasSec_append_last pre cur cv),
          appendToSec_last _ h1]
      · rw [parseExistingStep_content _ _ hC,
          setdefaultSec_of_hasSec (hasSec_append_last pre cur cv),
          appendToSec_last _ h1]
    rw [hstep, ih h1 (fun x hx => h2 x (List.mem_cons_of_mem _ hx))]
    simp

theorem foldl_parse_tail (rest : Doc) : ∀ (pre : Doc) (cur : Line) (cv : List Line),
    (pre.map Prod.fst ++ cur :: rest.map Prod.fst).Nodup →
    (∀ s ∈ rest, HeaderOK s.1) → (∀ s ∈ rest, ∀ ln ∈ s.2, ExLineOK ln) →
    ∃ c', (tailSecLinesRaw rest).foldl parseExistingStep
        (pre ++ [(cur, cv)], some cur) =
      (pre ++ addSepRaw ((cur, cv) :: rest), some c') := by
  induction rest with
  | nil =>
    intro pre cur cv _ _ _
    exact ⟨cur, by simp [tailSecLinesRaw, addSepRaw]⟩
  | cons s rest' ih =>
    rcases s with ⟨h, ls⟩
    intro pre cur cv hnd hH hL
    rw [List.map_cons] at hnd
    dsimp only at hnd
    have hdisj := (List.nodup_append.mp hnd).2.2
    have hcur_pre : cur ∉ pre.map Prod.fst := by
      intro hmem
      exact hdisj hmem (List.mem_cons_self _ _)
    have hh_pre : h ∉ pre.map Prod.fst := by
      intro hmem
      exact hdisj hmem (List.mem_cons_of_mem _ (List.mem_cons_self _ _))
    have hh_cur : h ≠ cur := by
      have hcons := (List.nodup_append.mp hnd).2.1
      intro he
      exact (List.nodup_cons.mp hcons).1 (he ▸ List.mem_cons_self _ _)
    have hHh : HeaderOK h := hH (h, ls) (List.mem_cons_self _ _)
    show ∃ c', (([] : Line) :: h :: (ls ++ tailSecLinesRaw rest')).foldl
        parseExistingStep (pre ++ [(cur, cv)], some cur) = _
    rw [List.foldl_cons]
    rw [parseExistingStep_blank,
      setdefaultSec_of_hasSec (hasSec_append_last pre cur cv),
      appendToSec_last _ hcur_pre]
    rw [List.foldl_cons]
    rw [parseExistingStep_header _ _ hHh]
    have hnotsec : hasSec (pre ++ [(cur, cv ++ [[]])]) h = false := by
      apply not_hasSec_of_not_mem
      rw [List.map_append]
      intro hmem
      rcases List.mem_append.mp hmem with hm | hm
      · exact hh_pre hm
      · simp at hm
        exact hh_cur hm
    rw [setdefaultSec_of_not_hasSec hnotsec]
    rw [List.foldl_append]
    have hpre' : h ∉ (pre ++ [(cur, cv ++ [[]])]).map Prod.fst := by
      intro hmem
      have hcontra := hasSec_iff_mem_keys.mpr hmem
      rw [hnotsec] at hcontra
      exact Bool.false_ne_true hcontra
    rw [foldl_parse_content hpre'
      (fun ln hln => hL (h, ls) (List.mem_cons_self _ _) ln hln)]
    rw [List.nil_append]
    have hnd' : ((pre ++ [(cur, cv ++ [[]])]).map Prod.fst ++
        h :: rest'.map Prod.fst).Nodup := by
      rw [List.map_append]
      simp only [List.map_cons, List.map_nil]
      have : pre.map Prod.fst ++ [cur] ++ h :: rest'.map Prod.fst =
          pre.map Prod.fst ++ cur :: h :: rest'.map Prod.fst := by simp
      rw [this]
      exact hnd
    rcases ih (pre ++ [(cur, cv ++ [[]])]) h ls hnd'
      (fun s hs => hH s (List.mem_cons_of_mem _ hs))
      (fun s hs => hL s (List.mem_cons_of_mem _ hs)) with ⟨c', hc'⟩
    refine ⟨c', ?_⟩
    rw [hc']
    simp [addSepRaw]

theorem noSep_tailSecLinesRaw {M : Doc}
    (hM : ∀ s ∈ M, HeaderOK s.1 ∧ ∀ ln ∈ s.2, ExLineOK ln) :
    ∀ ln ∈ tailSecLinesRaw (trimDoc M), noSepLine ln := by
  induction M with
  | nil =>
    intro ln hln
    cases hln
  | cons s rest ih =>
    rcases s with ⟨h, ls⟩
    intro ln hln
    rcases List.mem_cons.mp hln with he | hln
    · rw [he]
      intro c hc
      cases hc
    · rcases List.mem_cons.mp hln with he | hln
      · rw [he]
        exact (hM (h, ls) (List.mem_cons_self _ _)).1.1
      · rcases List.mem_append.mp hln with hln | hln
        · exact ExLineOK_noSep ((hM (h, ls) (List.mem_cons_self _ _)).2 ln
            (mem_of_mem_trimBlanks hln))
        · exact ih (fun t ht => hM t (List.mem_cons_of_mem _ ht)) ln hln

theorem noSep_secLinesRaw {M : Doc}
    (hM : ∀ s ∈ M, HeaderOK s.1 ∧ ∀ ln ∈ s.2, ExLineOK ln) :
    ∀ ln ∈ secLinesRaw (trimDoc M), noSepLine ln := by
  cases M with
  | nil =>
    intro ln hln
    cases hln
  | cons s rest =>
    rcases s with ⟨h, ls⟩
    intro ln hln
    rcases List.mem_cons.mp hln with he | hln
    · rw [he]
      exact (hM (h, ls) (List.mem_cons_self _ _)).1.1
    · rcases List.mem_append.mp hln with hln | hln
      · exact ExLineOK_noSep ((hM (h, ls) (List.mem_cons_self _ _)).2 ln
          (mem_of_mem_trimBlanks hln))
      · exact noSep_tailSecLinesRaw (fun t ht => hM t (List.mem_cons_of_mem _ ht))
          ln hln

/-- Re-parsing the rendered form of a well-formed merged document gives the
document back with trimmed sections and one absorbed blank separator line at
the end of every section except the last. -/
theorem parseExistingDoc_render {M : Doc} (hM : ExDocOK M) :
    parseExistingDoc (renderDoc M (M.map Prod.fst)) = addSepRaw (trimDoc M) := by
  unfold parseExistingDoc
  rw [renderDoc_eq_renderLines hM.1]
  rw [pySplitlines_renderLines (noSep_secLinesRaw hM.2)]
  cases M with
  | nil => rfl
  | cons s rest =>
    rcases s with ⟨h, ls⟩
    have hHh : HeaderOK h := (hM.2 (h, ls) (List.mem_cons_self _ _)).1
    show ((h :: (trimBlanks ls ++ tailSecLinesRaw (trimDoc rest))).foldl
      parseExistingStep ([], none)).1 = _
    rw [List.foldl_cons, parseExistingStep_header _ _ hHh,
      setdefaultSec_of_not_hasSec (by cases hs : hasSec ([] : Doc) h with
        | false => rfl
        | true => exact absurd (hasSec_iff_mem_keys.mp hs) (by simp))]
    rw [List.nil_append, List.foldl_append]
    rw [show ([(h, ([] : List Line))] : Doc) = ([] : Doc) ++ [(h, [])] from rfl]
    rw [foldl_parse_content (by simp)
      (fun ln hln => (hM.2 (h, ls) (List.mem_cons_self _ _)).2 ln
        (mem_of_mem_trimBlanks hln))]
    have hnd' : (([] : Doc).map Prod.fst ++ h :: (trimDoc rest).map Prod.fst).Nodup := by
      rw [keys_trimDoc]
      simpa using hM.1
    rcases foldl_parse_tail (trimDoc rest) [] h ([] ++ trimBlanks ls) hnd'
      (by
        intro t ht
        simp only [trimDoc, List.mem_map] at ht
        rcases ht with ⟨u, hu, rfl⟩
        exact (hM.2 u (List.mem_cons_of_mem _ hu)).1)
      (by
        intro t ht ln hln
        simp only [trimDoc, List.mem_map] at ht
        rcases ht with ⟨u, hu, rfl⟩
        exact (hM.2 u (List.mem_cons_of_mem _ hu)).2 ln
          (mem_of_mem_trimBlanks hln)) with ⟨c', hc'⟩
    rw [hc']
    simp [addSepRaw, trimDoc]

/-! ### Stability of the merge result under re-parsing -/

theorem dropWhile_idem {α} (p : α → Bool) (l : List α) :
    (l.dropWhile p).dropWhile p = l.dropWhile p :=
  dropWhile_eq_self_of_head fun _ hx => head_dropWhile_not hx

theorem mem_of_getLast? {α} {l : List α} {x : α} (h : l.getLast? = some x) :
    x ∈ l := by
  rcases List.getLast?_eq_some_iff.mp h with ⟨ys, rfl⟩
  simp

theorem isEmpty_false_of_ne {l : Line} (h : l ≠ []) : l.isEmpty = false := by
  cases l with
  | nil => exact absurd rfl h
  | cons a r => rfl

theorem popT_dropWhile_of_popT {A : List Line} (hA : popTrailingBlanks A = A) :
    popTrailingBlanks (A.dropWhile List.isEmpty) = A.dropWhile List.isEmpty := by
  apply popTrailingBlanks_eq_self
  intro x hx
  have hne : A.dropWhile List.isEmpty ≠ [] := by
    intro h0
    rw [h0] at hx
    simp at hx
  have hAl : A.getLast? = some x := by
    rw [getLast?_of_suffix (List.dropWhile_suffix _) hne]
    exact hx
  rw [← hA] at hAl
  exact getLast?_popTrailingBlanks_not_blank hAl

/-- Trimming an append whose left part has no trailing blanks and whose
right part has no blank lines. -/
theorem trimBlanks_append_popped {A U : List Line} (hA : popTrailingBlanks A = A)
    (hU : ∀ u ∈ U, u ≠ []) :
    trimBlanks (A ++ U) = A.dropWhile List.isEmpty ++ U := by
  cases U with
  | nil =>
    rw [List.append_nil, List.append_nil]
    exact popT_dropWhile_of_popT hA
  | cons u ur =>
    unfold trimBlanks
    rw [List.dropWhile_append]
    by_cases hd : (A.dropWhile List.isEmpty).isEmpty
    · rw [if_pos hd]
      have hdU : (u :: ur).dropWhile List.isEmpty = u :: ur := by
        apply dropWhile_eq_self_of_head
        intro x hx
        exact isEmpty_false_of_ne (hU x (List.mem_of_mem_head? hx))
      rw [hdU, List.isEmpty_iff.mp hd, List.nil_append]
      apply popTrailingBlanks_eq_self
      intro x hx
      exact isEmpty_false_of_ne (hU x (mem_of_getLast? hx))
    · rw [if_neg hd]
      apply popTrailingBlanks_append_of_getLast
      · intro x hx
        exact isEmpty_false_of_ne (hU x (mem_of_getLast? hx))
      · exact List.cons_ne_nil u ur

/-- Core stability fact: re-merging the trimmed rendering of a merged
section (with the blank separator placeholder possibly absorbed at its end)
against the same desired lines gives a section that trims to the same
result, so the rendered output is unchanged. -/
theorem trimBlanks_mergeLines_compat {el ds : List Line} {v : List Line}
    (hds : ∀ u ∈ ds, pyStrip u = u ∧ u ≠ [])
    (hv : v = trimBlanks (mergeLines el ds) ∨
      v = trimBlanks (mergeLines el ds) ++ [[]]) :
    trimBlanks (mergeLines v ds) = trimBlanks (mergeLines el ds) := by
  rw [mergeLines_eq el ds] at hv ⊢
  rw [mergeLines_eq v ds]
  have hA_fix : popTrailingBlanks (popTrailingBlanks
      (el.filter (keepAll ds))) = popTrailingBlanks (el.filter (keepAll ds)) :=
    popTrailingBlanks_idem _
  have hU_ne : ∀ u ∈ dedupFirst ds, u ≠ [] :=
    fun u hu => (hds u (mem_of_mem_dedupFirst hu)).2
  have hAk : ∀ x ∈ popTrailingBlanks (el.filter (keepAll ds)),
      keepAll ds x = true :=
    fun x hx => (List.mem_filter.mp (mem_of_mem_popTrailingBlanks hx)).2
  have hUk : (dedupFirst ds).filter (keepAll ds) = [] := by
    apply List.filter_eq_nil_iff.mpr
    intro u hu
    rw [keepAll_eq_false_of_mem (mem_of_mem_dedupFirst hu)
      (hds u (mem_of_mem_dedupFirst hu)).1]
    exact Bool.false_ne_true
  have hL1 : trimBlanks (popTrailingBlanks (el.filter (keepAll ds)) ++
      dedupFirst ds) =
      (popTrailingBlanks (el.filter (keepAll ds))).dropWhile List.isEmpty ++
        dedupFirst ds :=
    trimBlanks_append_popped hA_fix hU_ne
  have hdA_keep : ((popTrailingBlanks (el.filter (keepAll ds))).dropWhile
      List.isEmpty).filter (keepAll ds) =
      (popTrailingBlanks (el.filter (keepAll ds))).dropWhile List.isEmpty := by
    apply List.filter_eq_self.mpr
    intro x hx
    exact hAk x ((List.dropWhile_sublist _).mem hx)
  have hdA_fix : popTrailingBlanks ((popTrailingBlanks
      (el.filter (keepAll ds))).dropWhile List.isEmpty) =
      (popTrailingBlanks (el.filter (keepAll ds))).dropWhile List.isEmpty :=
    popT_dropWhile_of_popT hA_fix
  have hL2 : trimBlanks ((popTrailingBlanks (el.filter (keepAll ds))).dropWhile
      List.isEmpty ++ dedupFirst ds) =
      (popTrailingBlanks (el.filter (keepAll ds))).dropWhile List.isEmpty ++
        dedupFirst ds := by
    rw [trimBlanks_append_popped hdA_fix hU_ne, dropWhile_idem]
  rcases hv with rfl | rfl
  · rw [hL1]
    rw [List.filter_append, hdA_keep, hUk, List.append_nil, hdA_fix, hL2]
  · rw [hL1]
    rw [List.filter_append, List.filter_append, hdA_keep, hUk, List.append_nil]
    by_cases hK : keepAll ds []
    · rw [show List.filter (keepAll ds) [[]] = [[]] by simp [hK]]
      rw [popTrailingBlanks_append_blank, hdA_fix, hL2]
    · rw [show List.filter (keepAll ds) [[]] = [] by
        simp [Bool.eq_false_iff.mpr hK]]
      rw [List.append_nil, hdA_fix, hL2]

/-! ### Keys and lookups across trimming and separator absorption -/

theorem keys_addSepRaw (m : Doc) : (addSepRaw m).map Prod.fst = m.map Prod.fst := by
  induction m with
  | nil => rfl
  | cons s rest ih =>
    rcases s with ⟨h, ls⟩
    cases rest with
    | nil => rfl
    | cons s2 rest2 =>
      show h :: (addSepRaw (s2 :: rest2)).map Prod.fst =
        h :: (s2 :: rest2).map Prod.fst
      rw [ih]

theorem lookup_trimDoc (m : Doc) (sec : Line) :
    lookupSec (trimDoc m) sec = (lookupSec m sec).map trimBlanks := by
  induction m with
  | nil => rfl
  | cons s rest ih =>
    rcases s with ⟨h, ls⟩
    by_cases he : h = sec
    · subst he
      show lookupSec ((h, trimBlanks ls) :: trimDoc rest) h = _
      rw [lookupSec_head, lookupSec_head]
      rfl
    · show lookupSec ((h, trimBlanks ls) :: trimDoc rest) sec = _
      rw [lookupSec_cons_ne _ _ he, lookupSec_cons_ne _ _ he, ih]

theorem lookup_addSepRaw {m : Doc} {sec : Line} {w : List Line}
    (h : lookupSec m sec = some w) :
    ∃ v, lookupSec (addSepRaw m) sec = some v ∧ (v = w ∨ v = w ++ [[]]) := by
  induction m with
  | nil => cases h
  | cons s rest ih =>
    rcases s with ⟨hh, ls⟩
    cases rest with
    | nil =>
      by_cases he : hh = sec
      · subst he
        rw [lookupSec_head] at h
        injection h with h2
        exact ⟨ls, by rw [show addSepRaw [(hh, ls)] = [(hh, ls)] from rfl,
          lookupSec_head], Or.inl h2⟩
      · rw [lookupSec_cons_ne _ _ he] at h
        cases h
    | cons s2 rest2 =>
      by_cases he : hh = sec
      · subst he
        rw [lookupSec_head] at h
        injection h with h2
        refine ⟨ls ++ [[]], ?_, Or.inr (by rw [h2])⟩
        show lookupSec ((hh, ls ++ [[]]) :: addSepRaw (s2 :: rest2)) hh = _
        rw [lookupSec_head]
      · rw [lookupSec_cons_ne _ _ he] at h
        rcases ih h with ⟨v, hv1, hv2⟩
        refine ⟨v, ?_, hv2⟩
        show lookupSec ((hh, ls ++ [[]]) :: addSepRaw (s2 :: rest2)) sec = some v
        rw [lookupSec_cons_ne _ _ he]
        exact hv1

theorem mem_of_lookup {m : Doc} {k : Line} {v : List Line}
    (h : lookupSec m k = some v) : (k, v) ∈ m := by
  induction m with
  | nil => cases h
  | cons s rest ih =>
    rcases s with ⟨hh, ls⟩
    by_cases he : hh = k
    · subst he
      rw [lookupSec_head] at h
      injection h with h2
      rw [← h2]
      exact List.mem_cons_self _ _
    · rw [lookupSec_cons_ne _ _ he] at h
      exact List.mem_cons_of_mem _ (ih h)

theorem lookup_of_mem_nodup {m : Doc} (hnd : (m.map Prod.fst).Nodup)
    {s : Line × List Line} (hs : s ∈ m) : lookupSec m s.1 = some s.2 := by
  induction m with
  | nil => cases hs
  | cons u rest ih =>
    rcases u with ⟨hh, ls⟩
    rw [List.map_cons] at hnd
    rcases List.mem_cons.mp hs with he | hs
    · rw [he]
      exact lookupSec_head _ _ _
    · have hne : hh ≠ s.1 := by
        intro heq
        exact (List.nodup_cons.mp hnd).1
          (heq ▸ List.mem_map.mpr ⟨s, hs, rfl⟩)
      rw [lookupSec_cons_ne _ _ hne]
      exact ih (List.nodup_cons.mp hnd).2 hs

theorem exists_of_mem_keys {m : Doc} {k : Line} (h : k ∈ m.map Prod.fst) :
    ∃ v, (k, v) ∈ m := by
  rcases List.mem_map.mp h with ⟨s, hs, rfl⟩
  exact ⟨s.2, hs⟩

theorem mem_mergeLines {x : Line} {el ds : List Line} (h : x ∈ mergeLines el ds) :
    x ∈ el ∨ x ∈ ds := by
  rw [mergeLines_eq] at h
  rcases List.mem_append.mp h with h | h
  · exact Or.inl ((List.mem_filter.mp (mem_of_mem_popTrailingBlanks h)).1)
  · exact Or.inr (mem_of_mem_dedupFirst h)

theorem dkeys_sub_merged {E D : Doc} (hnd : (D.map Prod.fst).Nodup) :
    ∀ s ∈ D.map Prod.fst, s ∈ (mergeSections E D).map Prod.fst := by
  intro s hs
  rw [keys_mergeSections hnd]
  by_cases hE : hasSec E s
  · exact List.mem_append_left _ (hasSec_iff_mem_keys.mp hE)
  · exact List.mem_append_right _
      (List.mem_filter.mpr ⟨hs, by rw [Bool.eq_false_iff.mpr hE]; rfl⟩)

theorem ExDocOK_mergeSections {E D : Doc} (hE : ExDocOK E) (hD : DsDocOK D) :
    ExDocOK (mergeSections E D) := by
  have hkeys := keys_mergeSections (E := E) hD.1
  constructor
  · rw [hkeys]
    rw [List.nodup_append]
    refine ⟨hE.1, List.Nodup.filter _ hD.1, ?_⟩
    intro a ha hb
    have := (List.mem_filter.mp hb).2
    rw [hasSec_iff_mem_keys.mpr ha] at this
    cases this
  · intro s hs
    have hndM : ((mergeSections E D).map Prod.fst).Nodup := by
      rw [hkeys, List.nodup_append]
      refine ⟨hE.1, List.Nodup.filter _ hD.1, ?_⟩
      intro a ha hb
      have := (List.mem_filter.mp hb).2
      rw [hasSec_iff_mem_keys.mpr ha] at this
      cases this
    have hl := lookup_of_mem_nodup hndM hs
    constructor
    · have hkey : s.1 ∈ (mergeSections E D).map Prod.fst :=
        List.mem_map.mpr ⟨s, hs, rfl⟩
      rw [hkeys] at hkey
      rcases List.mem_append.mp hkey with hk | hk
      · rcases exists_of_mem_keys hk with ⟨v, hv⟩
        exact (hE.2 (s.1, v) hv).1
      · rcases exists_of_mem_keys (List.mem_filter.mp hk).1 with ⟨v, hv⟩
        exact (hD.2 (s.1, v) hv).1
    · intro ln hln
      by_cases hmem : s.1 ∈ D.map Prod.fst
      · rcases exists_of_mem_keys hmem with ⟨ds, hds⟩
        rw [lookupSec_mergeSections_key hD.1 hds] at hl
        injection hl with hl2
        rw [← hl2] at hln
        rcases mem_mergeLines hln with hx | hx
        · cases hle : lookupSec E s.1 with
          | none =>
            rw [hle] at hx
            cases hx
          | some le =>
            rw [hle] at hx
            exact (hE.2 (s.1, le) (mem_of_lookup hle)).2 ln hx
        · exact Or.inr ((hD.2 (s.1, ds) hds).2 ln hx)
      · rw [lookupSec_mergeSections_not_key hmem] at hl
        exact (hE.2 (s.1, s.2) (mem_of_lookup hl)).2 ln hln

theorem foldl_order_of_sub {ks ord : List Line} (h : ∀ s ∈ ks, s ∈ ord) :
    ks.foldl (fun acc s => if s ∈ acc then acc else acc ++ [s]) ord = ord := by
  induction ks with
  | nil => rfl
  | cons k kr ih =>
    rw [List.foldl_cons, if_pos (h k (List.mem_cons_self _ _))]
    exact ih fun s hs => h s (List.mem_cons_of_mem _ hs)

theorem sectionOrder_eq_keys {merged ds : Doc}
    (h : ∀ s ∈ ds.map Prod.fst, s ∈ merged.map Prod.fst) :
    sectionOrder merged ds = merged.map Prod.fst :=
  foldl_order_of_sub h

theorem renderDocAux_congr {m₁ m₂ : Doc} {order : List Line}
    (h : ∀ k ∈ order, trimBlanks ((lookupSec m₁ k).getD []) =
      trimBlanks ((lookupSec m₂ k).getD [])) :
    renderDocAux m₁ order = renderDocAux m₂ order := by
  induction order with
  | nil => rfl
  | cons k kr ih =>
    show 10 :: renderSection k ((lookupSec m₁ k).getD []) ++ renderDocAux m₁ kr =
      10 :: renderSection k ((lookupSec m₂ k).getD []) ++ renderDocAux m₂ kr
    unfold renderSection
    rw [h k (List.mem_cons_self _ _),
      ih fun x hx => h x (List.mem_cons_of_mem _ hx)]

theorem renderDoc_congr {m₁ m₂ : Doc} {order : List Line}
    (h : ∀ k ∈ order, trimBlanks ((lookupSec m₁ k).getD []) =
      trimBlanks ((lookupSec m₂ k).getD [])) :
    renderDoc m₁ order = renderDoc m₂ order := by
  cases order with
  | nil => rfl
  | cons k kr =>
    show renderSection k ((lookupSec m₁ k).getD []) ++ renderDocAux m₁ kr =
      renderSection k ((lookupSec m₂ k).getD []) ++ renderDocAux m₂ kr
    unfold renderSection
    rw [h k (List.mem_cons_self _ _),
      renderDocAux_congr fun x hx => h x (List.mem_cons_of_mem _ hx)]

theorem head?_popTrailingBlanks {l : List Line} {x : Line}
    (h : (popTrailingBlanks l).head? = some x) : l.head? = some x := by
  unfold popTrailingBlanks at h
  rw [List.head?_reverse] at h
  have hne : l.reverse.dropWhile List.isEmpty ≠ [] := by
    intro h0
    rw [h0] at h
    cases h
  rw [← getLast?_of_suffix (List.dropWhile_suffix _) hne] at h
  rwa [List.getLast?_reverse] at h

theorem trimBlanks_idem (ls : List Line) :
    trimBlanks (trimBlanks ls) = trimBlanks ls := by
  show popTrailingBlanks ((popTrailingBlanks (ls.dropWhile List.isEmpty)).dropWhile
    List.isEmpty) = popTrailingBlanks (ls.dropWhile List.isEmpty)
  have hdp : (popTrailingBlanks (ls.dropWhile List.isEmpty)).dropWhile
      List.isEmpty = popTrailingBlanks (ls.dropWhile List.isEmpty) := by
    apply dropWhile_eq_self_of_head
    intro x hx
    exact head_dropWhile_not (head?_popTrailingBlanks hx)
  rw [hdp, popTrailingBlanks_idem]

theorem trimBlanks_append_single_blank (ls : List Line) :
    trimBlanks (ls ++ [[]]) = trimBlanks ls := by
  unfold trimBlanks
  rw [List.dropWhile_append]
  by_cases hd : (ls.dropWhile List.isEmpty).isEmpty
  · rw [if_pos hd, List.isEmpty_iff.mp hd]
    rfl
  · rw [if_neg hd]
    exact popTrailingBlanks_append_blank _

/-- Stability of the written output: merging the same desired document into
the file just produced by a merge writes back exactly the same bytes. -/
theorem merge_render_stable {E : Doc} (hE : ExDocOK E) (d : Line) :
    merge_ini_content
        (some (renderDoc (mergeSections E (parseDesiredDoc d))
          (sectionOrder (mergeSections E (parseDesiredDoc d))
            (parseDesiredDoc d)))) d =
      renderDoc (mergeSections E (parseDesiredDoc d))
        (sectionOrder (mergeSections E (parseDesiredDoc d))
          (parseDesiredDoc d)) := by
  have hD : DsDocOK (parseDesiredDoc d) := parseDesiredDoc_inv d
  have hM : ExDocOK (mergeSections E (parseDesiredDoc d)) :=
    ExDocOK_mergeSections hE hD
  have hsub : ∀ s ∈ (parseDesiredDoc d).map Prod.fst,
      s ∈ (mergeSections E (parseDesiredDoc d)).map Prod.fst :=
    dkeys_sub_merged hD.1
  rw [sectionOrder_eq_keys hsub]
  show renderDoc
      (mergeSections (parseExistingDoc (renderDoc
        (mergeSections E (parseDesiredDoc d))
        ((mergeSections E (parseDesiredDoc d)).map Prod.fst)))
        (parseDesiredDoc d))
      (sectionOrder
        (mergeSections (parseExistingDoc (renderDoc
          (mergeSections E (parseDesiredDoc d))
          ((mergeSections E (parseDesiredDoc d)).map Prod.fst)))
          (parseDesiredDoc d))
        (parseDesiredDoc d)) =
    renderDoc (mergeSections E (parseDesiredDoc d))
      ((mergeSections E (parseDesiredDoc d)).map Prod.fst)
  rw [parseExistingDoc_render hM]
  have hkeysA : (addSepRaw (trimDoc (mergeSections E (parseDesiredDoc d)))).map
      Prod.fst = (mergeSections E (parseDesiredDoc d)).map Prod.fst := by
    rw [keys_addSepRaw, keys_trimDoc]
  have hkeysM2 : (mergeSections (addSepRaw (trimDoc (mergeSections E
      (parseDesiredDoc d)))) (parseDesiredDoc d)).map Prod.fst =
      (mergeSections E (parseDesiredDoc d)).map Prod.fst := by
    rw [keys_mergeSections hD.1, hkeysA]
    have hfilter : ((parseDesiredDoc d).map Prod.fst).filter
        (fun s => !hasSec (addSepRaw (trimDoc (mergeSections E
          (parseDesiredDoc d)))) s) = [] := by
      apply List.filter_eq_nil_iff.mpr
      intro s hs
      have hT : hasSec (addSepRaw (trimDoc (mergeSections E
          (parseDesiredDoc d)))) s = true :=
        hasSec_iff_mem_keys.mpr (by rw [hkeysA]; exact hsub s hs)
      simp [hT]
    rw [hfilter, List.append_nil]
  rw [sectionOrder_eq_keys (by
    intro s hs
    rw [hkeysM2]
    exact hsub s hs)]
  rw [hkeysM2]
  apply renderDoc_congr
  intro k hk
  rcases exists_of_mem_keys hk with ⟨ls, hls⟩
  have hlk : lookupSec (mergeSections E (parseDesiredDoc d)) k = some ls :=
    lookup_of_mem_nodup hM.1 hls
  by_cases hmem : k ∈ (parseDesiredDoc d).map Prod.fst
  · rcases exists_of_mem_keys hmem with ⟨ds, hds⟩
    have hlsM : lookupSec (mergeSections E (parseDesiredDoc d)) k =
        some (mergeLines ((lookupSec E k).getD []) ds) :=
      lookupSec_mergeSections_key hD.1 hds
    have hlsM2 : lookupSec (mergeSections (addSepRaw (trimDoc (mergeSections E
        (parseDesiredDoc d)))) (parseDesiredDoc d)) k =
        some (mergeLines ((lookupSec (addSepRaw (trimDoc (mergeSections E
          (parseDesiredDoc d)))) k).getD []) ds) :=
      lookupSec_mergeSections_key hD.1 hds
    have h1 : lookupSec (trimDoc (mergeSections E (parseDesiredDoc d))) k =
        some (trimBlanks (mergeLines ((lookupSec E k).getD []) ds)) := by
      rw [lookup_trimDoc, hlsM]
      rfl
    rcases lookup_addSepRaw h1 with ⟨v, hv, hvor⟩
    rw [hlsM2, hlsM, hv]
    simp only [Option.getD_some]
    apply trimBlanks_mergeLines_compat
    · intro u hu
      have hC := (hD.2 (k, ds) hds).2 u hu
      exact ⟨hC.2.1, hC.2.2.1⟩
    · exact hvor
  · have hlsM2 : lookupSec (mergeSections (addSepRaw (trimDoc (mergeSections E
        (parseDesiredDoc d)))) (parseDesiredDoc d)) k =
        lookupSec (addSepRaw (trimDoc (mergeSections E (parseDesiredDoc d)))) k :=
      lookupSec_mergeSections_not_key hmem
    have h1 : lookupSec (trimDoc (mergeSections E (parseDesiredDoc d))) k =
        some (trimBlanks ls) := by
      rw [lookup_trimDoc, hlk]
      rfl
    rcases lookup_addSepRaw h1 with ⟨v, hv, hvor⟩
    rw [hlsM2, hv, hlk]
    simp only [Option.getD_some]
    rcases hvor with rfl | rfl
    · rw [trimBlanks_idem]
    · rw [trimBlanks_append_single_blank, trimBlanks_idem]

/-- C1: running the config merge (`_merge_ini_file`) a second time with the
same desired document leaves the file content byte-identical to what the
first run produced, whether or not the target file existed before the first
run. -/
theorem c1_merge_idempotent (t : Option Line) (d : Line) :
    merge_ini_content (some (merge_ini_content t d)) d = merge_ini_content t d := by
  cases t with
  | none =>
    exact merge_render_stable (E := [])
      ⟨List.nodup_nil, by intro s hs; cases hs⟩ d
  | some t0 =>
    exact merge_render_stable (parseExistingDoc_inv t0) d

/-! ## Lemmas about the case-preserving replacers -/

theorem isAlphaN_of_toLowerN_eq {c d : Nat} (h : toLowerN c = toLowerN d)
    (hd : isAlphaN d = true) : isAlphaN c = true := by
  unfold toLowerN at h
  simp only [isAlphaN, isUpperN, isLowerN, Bool.and_eq_true, Bool.or_eq_true,
    decide_eq_true_eq] at hd ⊢
  split_ifs at h with h1 h2 h2 <;>
    simp only [isUpperN, Bool.and_eq_true, decide_eq_true_eq] at h1 h2 <;>
    omega

theorem lowerEq_eq {a b : Line} (h : lowerEq a b = true) :
    pyLower a = pyLower b := by
  unfold lowerEq at h
  exact eq_of_beq h

theorem lowerEq_length {a b : Line} (h : lowerEq a b = true) :
    a.length = b.length := by
  have := congrArg List.length (lowerEq_eq h)
  simpa [pyLower] using this

theorem alpha_of_lower_map_eq {a b : Line} (hmap : a.map toLowerN = b.map toLowerN)
    (hb : b.all isAlphaN = true) : a.all isAlphaN = true := by
  induction a generalizing b with
  | nil => rfl
  | cons c a' ih =>
    cases b with
    | nil => cases hmap
    | cons d b' =>
      rw [List.map_cons, List.map_cons] at hmap
      injection hmap with h1 h2
      rw [List.all_cons, Bool.and_eq_true] at hb
      rw [List.all_cons, Bool.and_eq_true]
      exact ⟨isAlphaN_of_toLowerN_eq h1 hb.1, ih h2 hb.2⟩

theorem alpha_of_lowerEq {a b : Line} (h : lowerEq a b = true)
    (hb : b.all isAlphaN = true) : a.all isAlphaN = true := by
  refine alpha_of_lower_map_eq ?_ hb
  have := lowerEq_eq h
  simpa [pyLower] using this

theorem pyTitleAux_all_lower {r : Line} (hr : r.all isAlphaN = true) :
    pyTitleAux r true = r.map toLowerN := by
  induction r with
  | nil => rfl
  | cons c r' ih =>
    rw [List.all_cons, Bool.and_eq_true] at hr
    unfold pyTitleAux
    rw [if_pos hr.1, if_pos rfl]
    rw [List.map_cons]
    rw [show isAlphaN c = true from hr.1]
    rw [ih hr.2]

theorem pyTitle_eq_capitalize {v : Line} (hv : v.all isAlphaN = true) :
    pyTitle v = pyCapitalize v := by
  cases v with
  | nil => rfl
  | cons c r =>
    rw [List.all_cons, Bool.and_eq_true] at hv
    unfold pyTitle pyTitleAux pyCapitalize
    rw [if_pos hv.1, if_neg (by simp)]
    rw [show isAlphaN c = true from hv.1]
    rw [pyTitleAux_all_lower hv.2]

theorem pyIsTitleAux_alpha_tail {r : Line} (hr : r.all isAlphaN = true) :
    pyIsTitleAux r true true = r.all isLowerN := by
  induction r with
  | nil => rfl
  | cons c r' ih =>
    rw [List.all_cons, Bool.and_eq_true] at hr
    unfold pyIsTitleAux
    by_cases hu : isUpperN c
    · rw [if_pos hu, if_pos rfl]
      rw [List.all_cons]
      have : isLowerN c = false := by
        rw [Bool.eq_false_iff]
        intro hl
        simp only [isUpperN, isLowerN, Bool.and_eq_true, decide_eq_true_eq] at hu hl
        omega
      rw [this]
      rfl
    · have hl : isLowerN c = true := by
        have := hr.1
        simp only [isAlphaN, isUpperN, isLowerN, Bool.and_eq_true,
          Bool.or_eq_true, decide_eq_true_eq] at this hu ⊢
        omega
      rw [if_neg hu, if_pos hl, if_pos rfl]
      rw [List.all_cons, hl, Bool.true_and]
      exact ih hr.2

theorem all_lower_of_alpha {r : Line} (hr : r.all isAlphaN = true) :
    r.all (fun c => !isAlphaN c || isLowerN c) = r.all isLowerN := by
  induction r with
  | nil => rfl
  | cons x r' ih =>
    rw [List.all_cons, Bool.and_eq_true] at hr
    rw [List.all_cons, List.all_cons]
    rw [show (!isAlphaN x || isLowerN x) = isLowerN x by rw [hr.1]; simp]
    rw [ih hr.2]

/-- On an entirely alphabetic match that is neither all-upper nor all-lower,
the two classifiers agree and the two emitted forms agree for an entirely
alphabetic replacement token. -/
theorem transforms_eq_of_alpha {newV m : Line} (hm : m.all isAlphaN = true)
    (hv : newV.all isAlphaN = true) (hne : m ≠ []) :
    fumTransform newV m = fuTransform newV m := by
  unfold fumTransform fuTransform
  by_cases h1 : pyIsUpperStr m
  · rw [if_pos h1, if_pos h1]
  · rw [if_neg h1, if_neg h1]
    by_cases h2 : pyIsLowerStr m
    · rw [if_pos h2, if_pos h2]
    · rw [if_neg h2, if_neg h2]
      cases m with
      | nil => exact absurd rfl hne
      | cons c r =>
        rw [List.all_cons, Bool.and_eq_true] at hm
        have hr_ne : r ≠ [] := by
          intro hre
          subst hre
          by_cases hu : isUpperN c
          · exact h1 (by simp [pyIsUpperStr, isAlphaN, hu])
          · have hl : isLowerN c = true := by
              have := hm.1
              simp only [isAlphaN, Bool.or_eq_true] at this
              rcases this with h | h
              · exact absurd h hu
              · exact h
            exact h2 (by simp [pyIsLowerStr, isAlphaN, hl])
        have htitle : pyIsTitleStr (c :: r) = (isUpperN c && r.all isLowerN) := by
          unfold pyIsTitleStr pyIsTitleAux
          by_cases hu : isUpperN c
          · rw [if_pos hu, if_neg (by simp)]
            rw [hu, Bool.true_and]
            exact pyIsTitleAux_alpha_tail hm.2
          · have hl : isLowerN c = true := by
              have := hm.1
              simp only [isAlphaN, Bool.or_eq_true] at this
              rcases this with h | h
              · exact absurd h hu
              · exact h
            rw [if_neg hu, if_pos hl, if_neg (by simp)]
            rw [Bool.eq_false_iff.mpr hu, Bool.false_and]
        have hfu : (isUpperN c && pyIsLowerStr r) = (isUpperN c && r.all isLowerN) := by
          have hany : r.any isAlphaN = true := by
            cases r with
            | nil => exact absurd rfl hr_ne
            | cons x r' =>
              have hx := hm.2
              rw [List.all_cons, Bool.and_eq_true] at hx
              simp [hx.1]
          have hlr : pyIsLowerStr r = r.all isLowerN := by
            unfold pyIsLowerStr
            rw [hany, Bool.true_and, all_lower_of_alpha hm.2]
          rw [hlr]
        show (if pyIsTitleStr (c :: r) = true then pyTitle newV else newV) =
          (if (isUpperN c && pyIsLowerStr r) = true then pyCapitalize newV else newV)
        rw [htitle, hfu]
        by_cases hcond : (isUpperN c && r.all isLowerN) = true
        · rw [if_pos hcond, if_pos hcond]
          exact pyTitle_eq_capitalize hv
        · rw [if_neg hcond, if_neg hcond]

theorem subCIGo_congr {p0 : Nat} {ps : Line} {tr1 tr2 : Line → Line}
    (h : ∀ m, lowerEq m (p0 :: ps) = true → tr1 m = tr2 m) :
    ∀ (t : Line) (skip : Nat), subCIGo p0 ps tr1 skip t = subCIGo p0 ps tr2 skip t := by
  intro t
  induction t with
  | nil =>
    intro skip
    cases skip <;> rfl
  | cons c rest ih =>
    intro skip
    cases skip with
    | succ k =>
      show subCIGo p0 ps tr1 k rest = subCIGo p0 ps tr2 k rest
      exact ih k
    | zero =>
      show (if lowerEq ((c :: rest).take (ps.length + 1)) (p0 :: ps) = true then
          tr1 ((c :: rest).take (ps.length + 1)) ++ subCIGo p0 ps tr1 ps.length rest
        else c :: subCIGo p0 ps tr1 0 rest) =
        (if lowerEq ((c :: rest).take (ps.length + 1)) (p0 :: ps) = true then
          tr2 ((c :: rest).take (ps.length + 1)) ++ subCIGo p0 ps tr2 ps.length rest
        else c :: subCIGo p0 ps tr2 0 rest)
      by_cases hc : lowerEq ((c :: rest).take (ps.length + 1)) (p0 :: ps) = true
      · rw [if_pos hc, if_pos hc, h _ hc, ih ps.length]
      · rw [if_neg hc, if_neg hc, ih 0]

theorem subCIGo_skip_all {p0 : Nat} {ps : Line} {tr : Line → Line} :
    ∀ (t : Line) (skip : Nat), t.length ≤ skip → subCIGo p0 ps tr skip t = [] := by
  intro t
  induction t with
  | nil =>
    intro skip _
    cases skip <;> rfl
  | cons c rest ih =>
    intro skip hle
    cases skip with
    | zero => simp at hle
    | succ k =>
      show subCIGo p0 ps tr k rest = []
      exact ih k (by simpa using hle)

/-- A text that is exactly one case-variant of the (non-empty) pattern is
replaced by the per-match transform of that variant. -/
theorem subCI_single_match {p0 : Nat} {ps m : Line} {tr : Line → Line}
    (h : lowerEq m (p0 :: ps) = true) : subCI p0 ps tr m = tr m := by
  have hlen : m.length = ps.length + 1 := by simpa using lowerEq_length h
  cases m with
  | nil => simp at hlen
  | cons c rest =>
    have hrest : rest.length = ps.length := by simpa using hlen
    unfold subCI
    show (if lowerEq ((c :: rest).take (ps.length + 1)) (p0 :: ps) = true then
        tr ((c :: rest).take (ps.length + 1)) ++ subCIGo p0 ps tr ps.length rest
      else c :: subCIGo p0 ps tr 0 rest) = tr (c :: rest)
    have htake : (c :: rest).take (ps.length + 1) = c :: rest :=
      List.take_of_length_le (by simp [hrest])
    rw [htake, if_pos h, subCIGo_skip_all rest ps.length (le_of_eq hrest),
      List.append_nil]

/-! ## Claim theorems for the case-preserving replacers -/

/-- C4 (amended): each case-insensitive match is rewritten independently:
an ALL-UPPER match emits `newToken` upper-cased and an all-lower match
emits it lower-cased in both implementations; `FileUtilityManager` emits
`newToken.title()` exactly for matches that are title-cased in Python's
`istitle` sense (an uppercase letter only after an uncased character, a
lowercase letter only after a cased one), while `file_utils` emits
`newToken.capitalize()` exactly for matches whose first character is upper
and whose remainder is a lowercase string; any other match emits
`newToken` as supplied. The spec's three-casing example holds for both;
a match like `A_b` (first letter upper, rest lower) is emitted unchanged
by `FileUtilityManager` and capitalized by `file_utils`, and a multi-word
`newToken` is title-cased by the former but only capitalized by the
latter. -/
theorem c4_case_rules_amended :
    (∀ (old newV m : Line), old ≠ [] → lowerEq m old = true →
      case_preserving_replace_fum old newV m = fumTransform newV m ∧
      case_preserving_replace_fu old newV m = fuTransform newV m) ∧
    case_preserving_replace_fum (lineOf "TP_Blank") (lineOf "MyProj")
        (lineOf "x TP_BLANK y tp_blank z TP_Blank") =
      lineOf "x MYPROJ y myproj z MyProj" ∧
    case_preserving_replace_fu (lineOf "TP_Blank") (lineOf "MyProj")
        (lineOf "x TP_BLANK y tp_blank z TP_Blank") =
      lineOf "x MYPROJ y myproj z MyProj" ∧
    case_preserving_replace_fum (lineOf "a_b") (lineOf "xy") (lineOf "A_b") =
      lineOf "xy" ∧
    case_preserving_replace_fu (lineOf "a_b") (lineOf "xy") (lineOf "A_b") =
      lineOf "Xy" ∧
    case_preserving_replace_fum (lineOf "abc") (lineOf "my proj") (lineOf "Abc") =
      lineOf "My Proj" ∧
    case_preserving_replace_fu (lineOf "abc") (lineOf "my proj") (lineOf "Abc") =
      lineOf "My proj" := by
  refine ⟨?_, by decide, by decide, by decide, by decide, by decide, by decide⟩
  intro old newV m hne hm
  cases old with
  | nil => exact absurd rfl hne
  | cons p0 ps => exact ⟨subCI_single_match hm, subCI_single_match hm⟩

/-- Witness for C4 (amended): an ALL-UPPER single-match text reduces to the
per-match transform for both implementations. -/
theorem c4_case_rules_witness :
    case_preserving_replace_fum (lineOf "tp") (lineOf "np") (lineOf "TP") =
      fumTransform (lineOf "np") (lineOf "TP") ∧
    case_preserving_replace_fu (lineOf "tp") (lineOf "np") (lineOf "TP") =
      fuTransform (lineOf "np") (lineOf "TP") :=
  c4_case_rules_amended.1 (lineOf "tp") (lineOf "np") (lineOf "TP")
    (by decide) (by decide)

/-- C4 counterexample: the match `A_b` of token `a_b` has its first letter
upper and its remaining letters lower, so per the claim the replacement
should be the title-cased `newToken` (`Xy` for `xy`), yet
`FileUtilityManager.case_preserving_replace` emits `xy` unchanged (the
match is not `istitle` because `b` follows the uncased underscore in
lowercase). -/
theorem c4_case_rules_counterexample :
    case_preserving_replace_fum (lineOf "a_b") (lineOf "xy") (lineOf "A_b") =
      lineOf "xy" ∧
    lineOf "xy" ≠ pyTitle (lineOf "xy") :=
  ⟨by decide, by decide⟩

/-- C9 (amended): the two implementations agree whenever the token and the
replacement are purely alphabetic, but they are not the same function: they
diverge on matches that are first-upper-rest-lower without being Python
title-cased (or vice versa) and on non-alphabetic replacement tokens. -/
theorem c9_replacers_amended :
    ∀ (old newV text : Line), old ≠ [] → old.all isAlphaN = true →
      newV.all isAlphaN = true →
      case_preserving_replace_fum old newV text =
        case_preserving_replace_fu old newV text := by
  intro old newV text hne halpha hv
  cases old with
  | nil => exact absurd rfl hne
  | cons p0 ps =>
    show subCI p0 ps (fumTransform newV) text = subCI p0 ps (fuTransform newV) text
    unfold subCI
    apply subCIGo_congr
    intro m hm
    have hmalpha : m.all isAlphaN = true := alpha_of_lowerEq hm halpha
    have hmne : m ≠ [] := by
      intro hmnil
      have := lowerEq_length hm
      rw [hmnil] at this
      simp at this
    exact transforms_eq_of_alpha hmalpha hv hmne

/-- Witness for C9 (amended): both implementations rewrite the three casing
variants of a purely alphabetic token identically. -/
theorem c9_replacers_witness :
    case_preserving_replace_fum (lineOf "ab") (lineOf "xy") (lineOf "AB ab Ab") =
      case_preserving_replace_fu (lineOf "ab") (lineOf "xy") (lineOf "AB ab Ab") :=
  c9_replacers_amended (lineOf "ab") (lineOf "xy") (lineOf "AB ab Ab")
    (by decide) (by decide) (by decide)

/-- C9 counterexample: on the token `TP_Blank` with replacement `MyProj`
and the text `Tp_Blank`, `FileUtilityManager` produces `Myproj` (the match
is `istitle`) while `file_utils` produces `MyProj` (the match's tail
`p_Blank` is not `islower`), so the two implementations are different
functions. -/
theorem c9_replacers_counterexample :
    case_preserving_replace_fum (lineOf "TP_Blank") (lineOf "MyProj")
        (lineOf "Tp_Blank") ≠
      case_preserving_replace_fu (lineOf "TP_Blank") (lineOf "MyProj")
        (lineOf "Tp_Blank") := by decide

/-! ## C2: the installed unit's directory name -/

theorem find?_of_filter_singleton {α : Type _} {q : α → Bool} {l : List α}
    {x : α} (h : l.filter q = [x]) : l.find? q = some x := by
  induction l with
  | nil => simp at h
  | cons a r ih =>
    rw [List.filter_cons] at h
    by_cases hq : q a = true
    · rw [if_pos hq] at h
      injection h with h1 h2
      rw [List.find?_cons_of_pos _ hq, h1]
    · rw [if_neg hq] at h
      rw [List.find?_cons_of_neg _ hq]
      exact ih h

/-- C2 (amended): for an archive in which exactly one directory holds a
descriptor file, the installed unit's directory name is the base name of
the directory that encloses the descriptor inside the archive (the last
component of the first matching path in walk order) — not the descriptor
file's base name. -/
theorem c2_installed_name_amended (tempName : Line) (t : FsTree)
    (pf : List Line × List Line)
    (h : (walkTree [tempName] t).filter (fun x => hasDescriptor x.2) = [pf]) :
    extract_plugin_zip_name tempName t = some (pf.1.getLastD []) := by
  unfold extract_plugin_zip_name findPluginFolder
  rw [find?_of_filter_singleton h]
  rfl

/-- Witness for C2 (amended): the archive `Foo/Bar.uplugin` has exactly one
descriptor-bearing directory, and the installed name is that directory's
base name `Foo`. -/
theorem c2_installed_name_witness :
    extract_plugin_zip_name (lineOf "Temp_Extract_Plugin") archiveFooBar =
      some ((([lineOf "Temp_Extract_Plugin", lineOf "Foo"],
        [lineOf "Bar.uplugin"]) : List Line × List Line).1.getLastD []) :=
  c2_installed_name_amended (lineOf "Temp_Extract_Plugin") archiveFooBar
    ([lineOf "Temp_Extract_Plugin", lineOf "Foo"], [lineOf "Bar.uplugin"])
    (by decide)

/-- C2 counterexample: for the archive `Foo/Bar.uplugin` (exactly one
descriptor) the installed name is the enclosing directory name `Foo`, which
differs from the descriptor's base name `Bar`. -/
theorem c2_installed_name_counterexample :
    extract_plugin_zip_name (lineOf "Temp_Extract_Plugin") archiveFooBar =
      some (lineOf "Foo") ∧
    descriptorBaseName (lineOf "Bar.uplugin") = lineOf "Bar" ∧
    lineOf "Foo" ≠ lineOf "Bar" :=
  ⟨by decide, by decide, by decide⟩

/-! ## C5: temporary-directory cleanup -/

/-- C5 (amended): `extract_plugin_zip` removes its temporary extraction
directory when no descriptor is found and when the move succeeds, but
leaves it behind when the unzip raises or the move raises;
`extract_and_install_plugin` removes it only on a successful move — on a
missing descriptor it returns with the directory left in place, and a bad
archive or a failing move likewise leaves it in place. -/
theorem c5_temp_cleanup_amended :
    (∀ (a : FsTree) (mo : Bool),
      extract_plugin_zip_name (lineOf "Temp_Extract_Plugin") a = none →
      (extract_plugin_zip_model true a mo).2 = false) ∧
    (∀ (a : FsTree) (n : Line),
      extract_plugin_zip_name (lineOf "Temp_Extract_Plugin") a = some n →
      (extract_plugin_zip_model true a true).2 = false ∧
      (extract_plugin_zip_model true a false).2 = true) ∧
    (∀ (a : FsTree) (mo : Bool),
      (extract_plugin_zip_model false a mo).2 = true) ∧
    (∀ (a : FsTree) (mo : Bool),
      extract_plugin_zip_name (lineOf "Temp_Extracted_Plugin") a = none →
      (extract_and_install_plugin_model true a mo).2 = true) ∧
    (∀ (a : FsTree) (n : Line),
      extract_plugin_zip_name (lineOf "Temp_Extracted_Plugin") a = some n →
      (extract_and_install_plugin_model true a true).2 = false ∧
      (extract_and_install_plugin_model true a false).2 = true) ∧
    (∀ (a : FsTree) (mo : Bool),
      (extract_and_install_plugin_model false a mo).2 = true) := by
  refine ⟨?_, ?_, ?_, ?_, ?_, ?_⟩
  · intro a mo h
    simp [extract_plugin_zip_model, h]
  · intro a n h
    constructor <;> simp [extract_plugin_zip_model, h]
  · intro a mo
    rfl
  · intro a mo h
    simp [extract_and_install_plugin_model, h]
  · intro a n h
    constructor <;> simp [extract_and_install_plugin_model, h]
  · intro a mo
    rfl

/-- Witness for C5 (amended): for the archive `Foo/Bar.uplugin` the
descriptor is found, so `extract_plugin_zip` removes the temporary
directory on a successful move and leaves it on a failing move. -/
theorem c5_temp_cleanup_witness :
    (extract_plugin_zip_model true archiveFooBar true).2 = false ∧
    (extract_plugin_zip_model true archiveFooBar false).2 = true :=
  c5_temp_cleanup_amended.2.1 archiveFooBar (lineOf "Foo") (by decide)

/-- C5 counterexample: two exit paths leave the temporary directory in
place — `extract_and_install_plugin` returning `None` because no descriptor
was found, and `extract_plugin_zip` propagating a move failure. -/
theorem c5_temp_cleanup_counterexample :
    (extract_and_install_plugin_model true archiveEmpty true).1 =
      InstallOutcome.noDescriptorFound ∧
    (extract_and_install_plugin_model true archiveEmpty true).2 = true ∧
    (extract_plugin_zip_model true archiveFooBar false).1 =
      InstallOutcome.moveRaised ∧
    (extract_plugin_zip_model true archiveFooBar false).2 = true :=
  ⟨rfl, rfl, rfl, rfl⟩

/-! ## C8: rename collision skip -/

/-- C8: a file or directory whose computed new name already exists in the
directory listing is not renamed — the listing is left unchanged (nothing
is overwritten), `rename_directory` returns the original path, and the
per-directory file loop continues over the remaining entries exactly as if
the colliding entry had been skipped (no exception is raised, so the walk
reports success for the rest of the tree). -/
theorem c8_collision_skip (fs : List Line) (name old newV : Line)
    (rest : List Line) (hc : containsCI name old = true)
    (hm : case_preserving_replace_fum old newV name ∈ fs) :
    rename_file_model fs name old newV = fs ∧
    rename_directory_model fs name old newV = (fs, name) ∧
    process_files_model fs (name :: rest) old newV =
      process_files_model fs rest old newV := by
  have h1 : rename_file_model fs name old newV = fs := by
    unfold rename_file_model
    rw [if_pos hc]
    show (if case_preserving_replace_fum old newV name ∈ fs then fs else _) = fs
    rw [if_pos hm]
  refine ⟨h1, ?_, ?_⟩
  · unfold rename_directory_model
    rw [if_pos hc]
    show (if case_preserving_replace_fum old newV name ∈ fs then (fs, name)
      else _) = (fs, name)
    rw [if_pos hm]
  · unfold process_files_model
    rw [List.foldl_cons, h1]

/-- Witness for C8: renaming `TP_Blank` to `MyProj` in a directory that
already lists `MyProj` leaves the listing unchanged, returns the original
directory path, and the file loop proceeds as if the entry were skipped. -/
theorem c8_collision_skip_witness :
    rename_file_model [lineOf "TP_Blank", lineOf "MyProj"] (lineOf "TP_Blank")
        (lineOf "TP_Blank") (lineOf "MyProj") =
      [lineOf "TP_Blank", lineOf "MyProj"] ∧
    rename_directory_model [lineOf "TP_Blank", lineOf "MyProj"]
        (lineOf "TP_Blank") (lineOf "TP_Blank") (lineOf "MyProj") =
      ([lineOf "TP_Blank", lineOf "MyProj"], lineOf "TP_Blank") ∧
    process_files_model [lineOf "TP_Blank", lineOf "MyProj"]
        [lineOf "TP_Blank"] (lineOf "TP_Blank") (lineOf "MyProj") =
      process_files_model [lineOf "TP_Blank", lineOf "MyProj"] []
        (lineOf "TP_Blank") (lineOf "MyProj") :=
  c8_collision_skip [lineOf "TP_Blank", lineOf "MyProj"] (lineOf "TP_Blank")
    (lineOf "TP_Blank") (lineOf "MyProj") [] (by decide) (by decide)

/-! ## C10: shape of trim_unique_str -/

theorem toBytesBE_length (k n : Nat) : (toBytesBE k n).length = k := by
  simp [toBytesBE]

theorem sha256_length (msg : List Nat) : (sha256 msg).length = 32 := by
  simp [sha256, toBytesBE_length]

theorem b32chunkChars_length (n : Nat) : (b32chunkChars n).length = 8 := by
  simp [b32chunkChars]

theorem b32alphabet_ok (j : Nat) (h : j < 32) :
    (isUpperN (b32alphabet.getD j 65) || isDigitN (b32alphabet.getD j 65)) =
      true := by
  interval_cases j <;> decide

theorem mem_b32chunkChars {c n : Nat} (h : c ∈ b32chunkChars n) :
    (isUpperN c || isDigitN c) = true := by
  unfold b32chunkChars at h
  rcases List.mem_map.mp h with ⟨i, hi, rfl⟩
  exact b32alphabet_ok _ (Nat.mod_lt _ (by norm_num))

theorem b32encodeAux_length (bs : List Nat) :
    (b32encodeAux bs).length = (bs.length + 4) / 5 * 8 := by
  induction bs using b32encodeAux.induct <;>
    (simp_all [b32encodeAux, b32chunkChars]; try omega)

theorem b32encodeAux_take_alpha (bs : List Nat) (c : Nat)
    (hc : c ∈ (b32encodeAux bs).take (8 * (bs.length / 5))) :
    (isUpperN c || isDigitN c) = true := by
  induction bs using b32encodeAux.induct with
  | case1 b0 b1 b2 b3 b4 rest ih =>
    simp only [b32encodeAux] at hc
    have hlen : (b0 :: b1 :: b2 :: b3 :: b4 :: rest : List Nat).length / 5 =
        rest.length / 5 + 1 := by
      simp only [List.length_cons]
      omega
    rw [hlen, Nat.mul_add, Nat.mul_one, Nat.add_comm] at hc
    rw [show (8 : Nat) + 8 * (rest.length / 5) =
        (b32chunkChars
          (((((b0 * 256 + b1) * 256 + b2) * 256 + b3) * 256) + b4)).length +
          8 * (rest.length / 5) from by rw [b32chunkChars_length]] at hc
    rw [List.take_append] at hc
    rcases List.mem_append.mp hc with h | h
    · exact mem_b32chunkChars h
    · exact ih h
  | case2 => simp [b32encodeAux] at hc
  | case3 b0 =>
    rw [show (8 : Nat) * (([b0] : List Nat).length / 5) = 0 from by simp] at hc
    simp at hc
  | case4 b0 b1 =>
    rw [show (8 : Nat) * (([b0, b1] : List Nat).length / 5) = 0 from by
      simp] at hc
    simp at hc
  | case5 b0 b1 b2 =>
    rw [show (8 : Nat) * (([b0, b1, b2] : List Nat).length / 5) = 0 from by
      simp] at hc
    simp at hc
  | case6 b0 b1 b2 b3 =>
    rw [show (8 : Nat) * (([b0, b1, b2, b3] : List Nat).length / 5) = 0 from by
      simp] at hc
    simp at hc

/-- C10: `trim_unique_str` always returns exactly 20 characters, the first
returned character is an ASCII uppercase letter and never a digit, and the
function is deterministic — equal inputs give equal outputs. -/
theorem c10_trim_unique_str (s : Line) :
    (trim_unique_str s).length = 20 ∧
    (∀ c, (trim_unique_str s).head? = some c →
      isUpperN c = true ∧ isDigitN c = false) ∧
    (∀ t : Line, s = t → trim_unique_str s = trim_unique_str t) := by
  have hdlen : (sha256 (pyUtf8 s)).length = 32 := sha256_length _
  have hblen : (b32encode (sha256 (pyUtf8 s))).length = 56 := by
    unfold b32encode
    rw [b32encodeAux_length, hdlen]
  have htlen : ((b32encode (sha256 (pyUtf8 s))).take 20).length = 20 := by
    rw [List.length_take, hblen]
    omega
  have h48 : (8 : Nat) * ((sha256 (pyUtf8 s)).length / 5) = 48 := by
    rw [hdlen]
  have hsub : (b32encode (sha256 (pyUtf8 s))).take 20 ⊆
      (b32encode (sha256 (pyUtf8 s))).take
        (8 * ((sha256 (pyUtf8 s)).length / 5)) := by
    rw [h48]
    intro x hx
    have heq : (b32encode (sha256 (pyUtf8 s))).take 20 =
        ((b32encode (sha256 (pyUtf8 s))).take 48).take 20 := by
      rw [List.take_take, show (20 : Nat) ⊓ 48 = 20 from by omega]
    rw [heq] at hx
    exact List.take_subset _ _ hx
  have halpha : ∀ c ∈ (b32encode (sha256 (pyUtf8 s))).take 20,
      (isUpperN c || isDigitN c) = true := fun c hc =>
    b32encodeAux_take_alpha _ c (hsub hc)
  refine ⟨?_, ?_, ?_⟩
  · unfold trim_unique_str
    cases htk : (b32encode (sha256 (pyUtf8 s))).take 20 with
    | nil =>
      rw [htk] at htlen
      simp at htlen
    | cons c0 rest =>
      have hlr : (c0 :: rest : Line).length = 20 := by
        rw [← htk]
        exact htlen
      show (if isDigitN c0 then 65 :: rest else c0 :: rest).length = 20
      by_cases hd : isDigitN c0 = true
      · rw [if_pos hd]
        simp only [List.length_cons] at hlr ⊢
        omega
      · rw [if_neg hd]
        exact hlr
  · intro c hcc
    cases htk : (b32encode (sha256 (pyUtf8 s))).take 20 with
    | nil =>
      rw [htk] at htlen
      simp at htlen
    | cons c0 rest =>
      have htr : trim_unique_str s =
          if isDigitN c0 then 65 :: rest else c0 :: rest := by
        unfold trim_unique_str
        rw [htk]
      have hmem : c0 ∈ (b32encode (sha256 (pyUtf8 s))).take 20 := by
        rw [htk]
        exact List.mem_cons_self c0 rest
      have hc0 := halpha c0 hmem
      rw [htr] at hcc
      by_cases hd : isDigitN c0 = true
      · rw [if_pos hd] at hcc
        simp only [List.head?_cons, Option.some.injEq] at hcc
        subst hcc
        exact ⟨by decide, by decide⟩
      · rw [if_neg hd] at hcc
        simp only [List.head?_cons, Option.some.injEq] at hcc
        subst hcc
        refine ⟨?_, Bool.eq_false_iff.mpr hd⟩
        rcases Bool.or_eq_true_iff.mp hc0 with h | h
        · exact h
        · exact absurd h hd
  · intro t ht
    rw [ht]

/-- Witness for C10: the 20-character result for the input `abc` starts
with `X` (code point 88), an uppercase letter and not a digit. -/
theorem c10_trim_unique_str_witness :
    isUpperN 88 = true ∧ isDigitN 88 = false :=
  (c10_trim_unique_str (lineOf "abc")).2.1 88 (by decide)

end ConvaiModel
